import Mathlib

/-!
Shallow embedding of the crash-capture core of `sentry-contrib-rust`
(breakpad-handler crate) in Lean 4, together with theorems settling the
frozen claims about it.

Conventions:
* Machine integers (`usize`, `u64`, `u32`) are modelled as `Nat`; where the
  source's wrapping or sign behaviour matters, it is made explicit.
* Byte buffers are `List Nat` (each element a byte value).
* Rust `Option` maps to `Option`; code paths that can panic (index out of
  bounds, `unwrap` of `None`) are modelled with `PResult`, whose `panicked`
  constructor records that the Rust code would abort rather than return.
-/

/-- Result of running a piece of Rust code that may panic. -/
inductive PResult (α : Type) where
  | panicked : PResult α
  | ok : α → PResult α
  deriving DecidableEq, Repr

/-- Little-endian read of a 16-bit value at byte offset `k`; `none` when the
read would run off the end of the buffer. -/
def readU16LE (data : List Nat) (k : Nat) : Option Nat := do
  let b0 ← data.get? k
  let b1 ← data.get? (k + 1)
  pure (b0 + b1 * 256)

/-- Little-endian read of a 32-bit value at byte offset `k`. -/
def readU32LE (data : List Nat) (k : Nat) : Option Nat := do
  let b0 ← data.get? k
  let b1 ← data.get? (k + 1)
  let b2 ← data.get? (k + 2)
  let b3 ← data.get? (k + 3)
  pure (b0 + b1 * 256 + b2 * 65536 + b3 * 16777216)

/-- Little-endian read of a 64-bit value at byte offset `k`. -/
def readU64LE (data : List Nat) (k : Nat) : Option Nat := do
  let lo ← readU32LE data k
  let hi ← readU32LE data (k + 4)
  pure (lo + hi * 4294967296)

/-- Little-endian encoding of a 16-bit value. -/
def u16le (n : Nat) : List Nat := [n % 256, n / 256 % 256]

/-- Little-endian encoding of a 32-bit value. -/
def u32le (n : Nat) : List Nat :=
  [n % 256, n / 256 % 256, n / 65536 % 256, n / 16777216 % 256]

/-- Little-endian encoding of a 64-bit value. -/
def u64le (n : Nat) : List Nat := u32le (n % 4294967296) ++ u32le (n / 4294967296)

/-- Rust slice `&buf[a..b]`: panics when `a > b` or `b > buf.len()`. -/
def rustSlice (buf : List Nat) (a b : Nat) : PResult (List Nat) :=
  if a ≤ b ∧ b ≤ buf.length then .ok ((buf.drop a).take (b - a)) else .panicked

/-!
## `MappingInfo` and `MappingInfo::from_str`
(src/breakpad-handler/src/linux/ptrace_dumper.rs)

Strings are modelled as `List Char`; the inputs of interest are ASCII, where
Rust's byte indices coincide with character indices.
-/

/-- One parsed `/proc/pid/maps` record (`MappingInfo` in ptrace_dumper.rs).
The name is a `FixedStr<255>`, modelled as the character list it holds. -/
structure MappingInfo where
  start_addr : Nat
  size : Nat
  sys_start_addr : Nat
  sys_end_addr : Nat
  offset : Nat
  has_exec : Bool
  name : List Char
  deriving DecidableEq, Repr

/-- `MappingInfo::contains_address`. -/
def MappingInfo.containsAddress (m : MappingInfo) (address : Nat) : Bool :=
  m.start_addr ≤ address && m.start_addr + m.size > address

/-- A hex digit's value, as accepted by `usize::from_str_radix(_, 16)`. -/
def hexDigitVal (c : Char) : Option Nat :=
  if '0' ≤ c ∧ c ≤ '9' then some (c.toNat - '0'.toNat)
  else if 'a' ≤ c ∧ c ≤ 'f' then some (c.toNat - 'a'.toNat + 10)
  else if 'A' ≤ c ∧ c ≤ 'F' then some (c.toNat - 'A'.toNat + 10)
  else none

/-- `usize::from_str_radix(s, 16)`: an optional sign, then at least one hex
digit, with overflow past `usize::MAX` rejected. -/
def fromStrRadix16 (s : List Char) : Option Nat :=
  let digits := match s with
    | '+' :: rest => rest
    | _ => s
  if digits.isEmpty then none
  else do
    let v ← digits.foldlM (fun acc c => (hexDigitVal c).map (fun d => acc * 16 + d)) 0
    if v < 2 ^ 64 then some v else none

/-- `str::find` for a single-character pattern (byte index of the first hit). -/
def strFind (s : List Char) (c : Char) : Option Nat :=
  s.findIdx? (fun x => x = c)

/-- Rust string slice `&line[a..b]` over ASCII text. -/
def strSlice (s : List Char) (a b : Nat) : PResult (List Char) :=
  if a ≤ b ∧ b ≤ s.length then .ok ((s.drop a).take (b - a)) else .panicked

/-- Rust string slice `&line[a..]` over ASCII text. -/
def strSliceFrom (s : List Char) (a : Nat) : PResult (List Char) :=
  if a ≤ s.length then .ok (s.drop a) else .panicked

/-- The inner `do_parse` closure of `MappingInfo::from_str`. `.ok none` means
the line is rejected (`Error::InvalidMapping`); `.panicked` marks a slice
index that Rust would panic on. The source computes
`size = end_addr - start_addr` with `usize` arithmetic; truncated `Nat`
subtraction is used here, which agrees whenever `end_addr ≥ start_addr`
(true for every line considered by the theorems below). -/
def mappingInfoDoParse (line : List Char) : PResult (Option MappingInfo) :=
  match strFind line '-' with
  | none => .ok none
  | some dashInd =>
    match strSlice line 0 dashInd with
    | .panicked => .panicked
    | .ok startStr =>
      match fromStrRadix16 startStr with
      | none => .ok none
      | some startAddr =>
        match strSliceFrom line (dashInd + 1) with
        | .panicked => .panicked
        | .ok afterDash =>
          match strFind afterDash ' ' with
          | none => .ok none
          | some sp =>
            let endIdx := sp + dashInd + 1
            match strSlice line (dashInd + 1) endIdx with
            | .panicked => .panicked
            | .ok endStr =>
              match fromStrRadix16 endStr with
              | none => .ok none
              | some endAddr =>
                match strSlice line (endIdx + 1) (endIdx + 5) with
                | .panicked => .panicked
                | .ok permStr =>
                  let hasExec := (strFind permStr 'x').isSome
                  match strSliceFrom line (endIdx + 6) with
                  | .panicked => .panicked
                  | .ok afterPerm =>
                    match strFind afterPerm ' ' with
                    | none => .ok none
                    | some offsetEnd =>
                      match strSlice line (endIdx + 6) (endIdx + 6 + offsetEnd) with
                      | .panicked => .panicked
                      | .ok offsetStr =>
                        match fromStrRadix16 offsetStr with
                        | none => .ok none
                        | some offset =>
                          match strSliceFrom line offsetEnd with
                          | .panicked => .panicked
                          | .ok nameSearch =>
                            let nameRes : PResult (Option (List Char)) :=
                              match strFind nameSearch '/' with
                              | none => .ok (some [])
                              | some pathStart =>
                                match strSliceFrom line (offsetEnd + pathStart) with
                                | .panicked => .panicked
                                | .ok path =>
                                  -- FixedStr<255>::write_str fails (and `.ok()?`
                                  -- rejects the line) when the path exceeds 255
                                  if path.length > 255 then .ok none
                                  else .ok (some path)
                            match nameRes with
                            | .panicked => .panicked
                            | .ok none => .ok none
                            | .ok (some name) =>
                              .ok (some
                                { start_addr := startAddr
                                  size := endAddr - startAddr
                                  sys_start_addr := startAddr
                                  sys_end_addr := endAddr
                                  offset := offset
                                  has_exec := hasExec
                                  name := name })

/-!
## `PTraceDumper::suspend_threads`
(src/breakpad-handler/src/linux/ptrace_dumper.rs)

The interactions with the OS (`ptrace(PTRACE_ATTACH)`, `waitpid`, and the
x86 stack-pointer register probe) are abstracted into a single oracle
`attachOk : Nat → Bool`: `attachOk tid` is true exactly when the inner
`suspend_thread(tid)` helper returns `true` (attach succeeded, waitpid did
not EINTR, and the stack pointer register read back nonzero).
-/

/-- `suspend_threads` on a fresh (`threads_suspended == false`) dumper:
every `Some(tid)` entry for which `suspend_thread` fails is overwritten with
`None`; the call returns `Ok` iff any entry is still `Some`, and
`Err(NoValidThreads)` otherwise. The returned `Bool` is `true` for `Ok`. -/
def suspendThreads (attachOk : Nat → Bool) (threads : List (Option Nat)) :
    List (Option Nat) × Bool :=
  let ts := threads.map (fun t =>
    match t with
    | some tid => if attachOk tid then some tid else none
    | none => none)
  (ts, ts.any (fun t => t.isSome))

/-!
## `FileWriter` (src/breakpad-handler/src/linux/file_writer.rs)

The writer owns a `&mut File`; the file is modelled by its byte contents and
seek cursor. `set_len` and `write_all` are modelled as succeeding (the claims
concern successful calls).
-/

/-- `Reservation`: a fixed (file offset, byte length) pair. -/
structure Reservation where
  pos : Nat
  size : Nat
  deriving DecidableEq, Repr

/-- `FileWriter` together with the underlying `File`: `contents`/`cursor`
model the OS file, `pos`/`len` are the writer's own fields. -/
structure FileWriter where
  contents : List Nat
  cursor : Nat
  pageSize : Nat
  pos : Nat
  len : Nat
  deriving DecidableEq, Repr

/-- `FileWriter::new`. -/
def FileWriter.new (pageSize : Nat) : FileWriter :=
  { contents := [], cursor := 0, pageSize := pageSize, pos := 0, len := 0 }

/-- `FileWriter::position`. -/
def FileWriter.position (fw : FileWriter) : Nat := fw.pos

/-- `File::set_len(new_len)`: truncate or zero-extend the contents. -/
def fileSetLen (contents : List Nat) (newLen : Nat) : List Nat :=
  if newLen ≤ contents.length then contents.take newLen
  else contents ++ List.replicate (newLen - contents.length) 0

/-- `write_all` at a cursor: overwrite bytes `[at, at + buf.len())`,
zero-filling any gap past the current end of file. -/
def fileStore (contents : List Nat) (at0 : Nat) (buf : List Nat) : List Nat :=
  let padded :=
    if at0 + buf.length ≤ contents.length then contents
    else contents ++ List.replicate (at0 + buf.length - contents.length) 0
  (padded.take at0) ++ buf ++ (padded.drop (at0 + buf.length))

/-- `FileWriter::reserve_raw(size)`: grow the file in whole pages when the
unwritten tail cannot hold `size` more bytes, then hand out the next `size`
bytes starting at the current append position. -/
def FileWriter.reserveRaw (fw : FileWriter) (size : Nat) : Reservation × FileWriter :=
  let unwritten := fw.len - fw.pos
  let fw :=
    if unwritten < size then
      let numPages := size / fw.pageSize + 1
      let newLen := fw.len + numPages * fw.pageSize
      { fw with contents := fileSetLen fw.contents newLen, len := newLen }
    else fw
  ({ pos := fw.pos, size := size }, { fw with pos := fw.pos + size })

/-- `FileWriter::write(reservation, offset, buffer)`: remember the current
append position, seek to `reservation.pos + offset`, write the buffer, seek
back. All I/O succeeds in this model. -/
def FileWriter.write (fw : FileWriter) (reservation : Reservation) (offset : Nat)
    (buffer : List Nat) : FileWriter :=
  let retPos := fw.pos
  let fw := { fw with cursor := reservation.pos + offset }
  let fw := { fw with
    contents := fileStore fw.contents fw.cursor buffer
    cursor := fw.cursor + buffer.length }
  { fw with cursor := retPos }

/-- The half-open byte range a `FileWriter::write` call touches. -/
def writeSpanWithin (reservation : Reservation) (offset : Nat) (buffer : List Nat) : Prop :=
  reservation.pos ≤ reservation.pos + offset ∧
    reservation.pos + offset + buffer.length ≤ reservation.pos + reservation.size

/-!
## `PageAllocator` (src/breakpad-handler/src/alloc/page_allocator.rs)

`mmap` is abstracted into an oracle that supplies the base address of each
fresh block; the kernel's guarantee that a new mapping does not overlap any
existing one is checked by the runner and surfaced as a hypothesis.
Addresses are idealized as `Nat` (no wraparound: Rust pointer arithmetic
past the address space is UB anyway).
-/

/-- `size_of::<PageHeader>()` on a 64-bit target: a nullable pointer plus a
`usize`. -/
def pageHeaderSize : Nat := 16

/-- One mmapped block of pages (a `PageHeader` chain entry). -/
structure Block where
  base : Nat
  numPages : Nat
  deriving DecidableEq, Repr

/-- `PageAllocator` state. -/
structure PageAllocator where
  blocks : List Block
  currentPage : Option (Nat × Nat)
  totalAllocatedPages : Nat
  deriving DecidableEq, Repr

/-- `PageAllocator::new`. -/
def PageAllocator.new : PageAllocator :=
  { blocks := [], currentPage := none, totalAllocatedPages := 0 }

/-- Whether `alloc_raw(size)` would be served from the current page
(`page_size - cur_page.offset >= size`). -/
def PageAllocator.hitsCurrent (st : PageAllocator) (ps size : Nat) : Bool :=
  match st.currentPage with
  | some (_, off) => size ≤ ps - off
  | none => false

/-- The miss path of `alloc_raw`: `alloc_pages` plus the leftover-tail
bookkeeping. -/
def PageAllocator.allocFresh (st : PageAllocator) (ps freshBase size : Nat) :
    Nat × PageAllocator :=
  let numPages := (size + pageHeaderSize + ps - 1) / ps
  let st := { st with
    blocks := ⟨freshBase, numPages⟩ :: st.blocks
    totalAllocatedPages := st.totalAllocatedPages + numPages }
  let offset := (ps - (ps * numPages - (size + pageHeaderSize))) % ps
  let st :=
    if offset ≠ 0 then
      { st with currentPage := some (freshBase + ps * (numPages - 1), offset) }
    else st
  (freshBase + pageHeaderSize, st)

/-- `PageAllocator::alloc_raw(size)` with page size `ps`; `freshBase` is the
address `mmap` would return if a new block is needed. Returns the handed-out
pointer and the new state. -/
def PageAllocator.allocRaw (st : PageAllocator) (ps freshBase size : Nat) :
    Nat × PageAllocator :=
  match st.currentPage with
  | some (start, off) =>
    if size ≤ ps - off then
      let newOff := off + size
      (start + off,
        { st with currentPage := if newOff = ps then none else some (start, newOff) })
    else st.allocFresh ps freshBase size
  | none => st.allocFresh ps freshBase size

/-- `PageAllocator::owns_pointer`. -/
def PageAllocator.ownsPointer (st : PageAllocator) (ps p : Nat) : Bool :=
  st.blocks.any (fun b => b.base ≤ p && p < b.base + b.numPages * ps)

/-- Two page blocks occupy disjoint address ranges. -/
def blockDisjoint (ps : Nat) (b c : Block) : Prop :=
  b.base + b.numPages * ps ≤ c.base ∨ c.base + c.numPages * ps ≤ b.base

instance (ps : Nat) (b c : Block) : Decidable (blockDisjoint ps b c) := by
  unfold blockDisjoint; infer_instance

/-- One `alloc_raw` request of a run: `op = (size, freshBase)`. The third
accumulator component stays `true` only while every freshly mmapped block is
disjoint from all blocks already mapped (what the kernel guarantees). -/
def allocStep (ps : Nat) (acc : PageAllocator × List (Nat × Nat) × Bool)
    (op : Nat × Nat) : PageAllocator × List (Nat × Nat) × Bool :=
  let st := acc.1
  let fresh :=
    if st.hitsCurrent ps op.1 then true
    else st.blocks.all (fun b =>
      decide (blockDisjoint ps ⟨op.2, (op.1 + pageHeaderSize + ps - 1) / ps⟩ b))
  let r := st.allocRaw ps op.2 op.1
  (r.2, acc.2.1 ++ [(r.1, op.1)], acc.2.2 && fresh)

/-- Run a sequence of `alloc_raw` requests. Returns the final state, the
returned `(pointer, size)` regions in order, and the mmap-disjointness
flag. -/
def runAllocs (ps : Nat) (ops : List (Nat × Nat)) :
    PageAllocator × List (Nat × Nat) × Bool :=
  ops.foldl (allocStep ps) (PageAllocator.new, [], true)

/-- Two `(start, len)` regions are disjoint. -/
def regionsDisjoint (r s : Nat × Nat) : Prop :=
  r.1 + r.2 ≤ s.1 ∨ s.1 + s.2 ≤ r.1

/-- A region lies inside one of the allocator's blocks. -/
def regionInBlocks (ps : Nat) (st : PageAllocator) (r : Nat × Nat) : Prop :=
  ∃ b ∈ st.blocks, b.base ≤ r.1 ∧ r.1 + r.2 ≤ b.base + b.numPages * ps

/-!
## `PTraceDumper::sanitize_stack`
(src/breakpad-handler/src/linux/ptrace_dumper.rs, 64-bit target)

The word loop is modelled with explicit fuel: `none` from the loop means the
fuel ran out, i.e. the Rust loop has not finished within that many
iterations. The iteration structure mirrors the source exactly — in
particular, the `continue` paths do not advance `sp`.
-/

/-- The 64-bit sanitization sentinel `0x0defaced0defaced`. -/
def SENTINEL : Nat := 0x0defaced0defaced

/-- `addr as isize` on a 64-bit target. -/
def asIsize (addr : Nat) : Int :=
  if addr < 2 ^ 63 then (addr : Int) else (addr : Int) - 2 ^ 64

/-- The small-integer test: within ±4 KiB of zero as a signed word. -/
def isSmallInt (addr : Nat) : Bool :=
  decide (asIsize addr ≤ 4096 ∧ -4096 ≤ asIsize addr)

/-- Set the bits for one executable mapping in the 256-byte
`could_hit_mapping` array (`for bit in start..=end`). -/
def markBits (arr : List Nat) (start endBit : Nat) : List Nat :=
  (List.range (endBit + 1 - start)).foldl
    (fun a k =>
      let bit := start + k
      let idx := (bit >>> 3) % 256
      a.set idx ((a.getD idx 0) ||| (1 <<< (bit % 8))))
    arr

/-- Build the `could_hit_mapping` bitmap from the executable mappings
(`SHIFT = 32 - TEST_BITS = 21`). -/
def buildCouldHit (ms : List MappingInfo) : List Nat :=
  ms.foldl
    (fun arr m =>
      if m.has_exec then
        markBits arr (m.start_addr >>> 21) ((m.start_addr + m.size) >>> 21)
      else arr)
    (List.replicate 256 0)

/-- Test a word against the `could_hit_mapping` bitmap. -/
def couldHitTest (arr : List Nat) (addr : Nat) : Bool :=
  let t := addr >>> 21
  (arr.getD ((t >>> 3) % 256) 0) &&& (1 <<< (t % 8)) ≠ 0

/-- `PTraceDumper::find_mapping_no_bias`. -/
def findMappingNoBias (ms : List MappingInfo) (address : Nat) : Option MappingInfo :=
  ms.find? (fun m => m.containsAddress address)

/-- Read the word at byte offset `i` (native little-endian, in bounds for
every use below). -/
def readWordAt (bytes : List Nat) (i : Nat) : Nat :=
  (readU64LE bytes i).getD 0

/-- Overwrite the word at byte offset `i`. -/
def writeWordAt (bytes : List Nat) (i word : Nat) : List Nat :=
  bytes.take i ++ u64le word ++ bytes.drop (i + 8)

/-- The `while sp <= end` loop of `sanitize_stack`. `none` = fuel exhausted
before the loop finished. -/
def sanitizeLoop (ms : List MappingInfo) (stackMapping : Option MappingInfo)
    (arr : List Nat) (endIdx : Nat) :
    Nat → List Nat → Nat → Option MappingInfo → Option (List Nat)
  | 0, _, _, _ => none
  | fuel + 1, bytes, sp, lastHit =>
    if sp ≤ endIdx then
      let addr := readWordAt bytes sp
      if isSmallInt addr then
        sanitizeLoop ms stackMapping arr endIdx fuel bytes sp lastHit
      else if (match stackMapping with
               | some sm => sm.containsAddress addr
               | none => false) then
        sanitizeLoop ms stackMapping arr endIdx fuel bytes sp lastHit
      else if (match lastHit with
               | some sm => sm.containsAddress addr
               | none => false) then
        sanitizeLoop ms stackMapping arr endIdx fuel bytes sp lastHit
      else
        match
          if couldHitTest arr addr then
            (findMappingNoBias ms addr).filter (fun m => m.has_exec)
          else none
        with
        | some mapping =>
          sanitizeLoop ms stackMapping arr endIdx fuel bytes sp (some mapping)
        | none =>
          sanitizeLoop ms stackMapping arr endIdx fuel
            (writeWordAt bytes sp SENTINEL) (sp + 8) lastHit
    else some bytes

/-- `PTraceDumper::sanitize_stack(stack, original_stack, offset)`.
`.panicked` marks the slice panic when the word-aligned offset exceeds the
buffer; `.ok none` means the word loop did not finish within `fuel`
iterations; `.ok (some bytes)` is the sanitized buffer. `stack.len() - 8`
uses truncated subtraction, as does the source's `usize` arithmetic for
buffers of at least one word (the only ones the dumper produces). -/
def sanitizeStack (fuel : Nat) (ms : List MappingInfo) (stack : List Nat)
    (originalStack offset : Nat) : PResult (Option (List Nat)) :=
  let stackMapping := findMappingNoBias ms originalStack
  let arr := buildCouldHit ms
  -- (offset + size_of::<usize>() - 1) & !(size_of::<usize>() - 1)
  let zeroOffset := (offset + 7) / 8 * 8
  if zeroOffset > stack.length then .panicked
  else
    let stack1 :=
      if zeroOffset > 0 then List.replicate zeroOffset 0 ++ stack.drop zeroOffset
      else stack
    let endIdx := stack.length - 8
    match sanitizeLoop ms stackMapping arr endIdx fuel stack1 zeroOffset none with
    | none => .ok none
    | some bytes =>
      let tailLen := bytes.length % 8
      .ok (some
        (if tailLen > 0 then
          bytes.take (bytes.length - tailLen) ++ List.replicate tailLen 0
        else bytes))

/-!
## `PTraceDumper::enumerate_mappings`
(src/breakpad-handler/src/linux/ptrace_dumper.rs)

The `/proc/pid/maps` file and the line reader are abstracted: the input is
the list of successfully parsed `MappingInfo` records in file order
(unparseable lines are skipped by the source before this logic runs).
`linuxGate`/`entryPoint` are the `AT_SYSINFO_EHDR` and `AT_ENTRY` auxv
values.
-/

/-- `LINUX_GATE_LIBRARY_NAME`. -/
def LINUX_GATE : List Char := "linux-gate.so".toList

/-- The body of the `for line in line_reader` loop: vdso fixup, then either
merge into the previous mapping or push. -/
def addMapping (linuxGate : Option Nat) (acc : List MappingInfo)
    (nfo0 : MappingInfo) : List MappingInfo :=
  let nfo :=
    if linuxGate = some nfo0.start_addr then
      { nfo0 with name := LINUX_GATE, offset := 0 }
    else nfo0
  match acc.getLast? with
  | some last =>
    if nfo.start_addr = last.start_addr + last.size ∧ nfo.name = last.name ∧
        ((nfo.has_exec == last.has_exec) || (!last.has_exec && nfo.has_exec)) = true then
      acc.dropLast ++
        [{ last with
            sys_end_addr := nfo.sys_end_addr
            size := nfo.sys_end_addr - last.start_addr
            has_exec := last.has_exec || nfo.has_exec }]
    else acc ++ [nfo]
  | none => acc ++ [nfo]

/-- The entry-point relocation at the end of `enumerate_mappings`. -/
def moveEntryFront (entryPoint : Option Nat) (ms : List MappingInfo) :
    List MappingInfo :=
  match entryPoint with
  | none => ms
  | some ep =>
    match ms.findIdx? (fun m => ep ≥ m.start_addr && ep < m.start_addr + m.size) with
    | none => ms
    | some pos =>
      if pos ≠ 0 then
        match ms.get? pos with
        | some entry => entry :: ms.eraseIdx pos
        | none => ms
      else ms

/-- `PTraceDumper::enumerate_mappings`, over the parsed lines. -/
def enumerateMappings (linuxGate entryPoint : Option Nat)
    (lines : List MappingInfo) : List MappingInfo :=
  moveEntryFront entryPoint (lines.foldl (addMapping linuxGate) [])

/-- The merge condition of claim C5, stated on two consecutively parsed
lines: same name, contiguous, executable flag non-decreasing. -/
def mergeCondLines (a b : MappingInfo) : Prop :=
  b.start_addr = a.start_addr + a.size ∧ b.name = a.name ∧
    (a.has_exec = true → b.has_exec = true)

instance (a b : MappingInfo) : Decidable (mergeCondLines a b) := by
  unfold mergeCondLines; infer_instance

/-- A parsed line is internally consistent: its system end address is its
start plus its size (what `MappingInfo::from_str` produces whenever
`end_addr ≥ start_addr`). -/
def wfLine (l : MappingInfo) : Prop :=
  l.sys_end_addr = l.start_addr + l.size

/-!
## ELF build-id extraction (src/breakpad-handler/src/linux/elf.rs)

Little-endian 64-bit target. Only the header fields the source consumes are
retained from goblin's header structs (`parse_header` reads the whole struct
via a pointer cast; the unused fields never influence behaviour). Raw,
unchecked memory reads performed through `slice::from_raw_parts` are
modelled as `.panicked` when they would leave the mapped image (the Rust
code's behaviour there is undefined; no theorem below depends on that
region). An `ElfId` is modelled as the byte list it carries
(`ElfId::new` fails when it is longer than `MAX_ID_SIZE = 64`).
-/

/-- The header fields of either ELF class that the code reads. -/
structure ElfHeaderFields where
  e_phoff : Nat
  e_phnum : Nat
  e_shoff : Nat
  e_shnum : Nat
  e_shstrndx : Nat
  deriving DecidableEq, Repr

/-- `ElfClass`. -/
inductive ElfClassHdr where
  | class32 : ElfHeaderFields → ElfClassHdr
  | class64 : ElfHeaderFields → ElfClassHdr
  deriving DecidableEq, Repr

/-- `MappedElf`. -/
structure MappedElf where
  data : List Nat
  cls : ElfClassHdr
  deriving DecidableEq, Repr

/-- `MappedElf::read`: magic check (`&data[..4]` panics on a shorter slice),
class dispatch on byte 4, then `parse_header` bounds check against the
header size (52 for class 32, 64 for class 64). Field offsets follow the
standard ELF header layout goblin uses. -/
def MappedElf.read (data : List Nat) : PResult (Option MappedElf) :=
  if data.length < 4 then .panicked
  else if data.take 4 ≠ [0x7f, 0x45, 0x4c, 0x46] then .ok none
  else
    match data.get? 4 with
    | none => .ok none
    | some cls =>
      if cls = 1 then
        if data.length < 52 then .ok none
        else .ok (some ⟨data, .class32
          { e_phoff := (readU32LE data 28).getD 0
            e_phnum := (readU16LE data 44).getD 0
            e_shoff := (readU32LE data 32).getD 0
            e_shnum := (readU16LE data 48).getD 0
            e_shstrndx := (readU16LE data 50).getD 0 }⟩)
      else if cls = 2 then
        if data.length < 64 then .ok none
        else .ok (some ⟨data, .class64
          { e_phoff := (readU64LE data 32).getD 0
            e_phnum := (readU16LE data 56).getD 0
            e_shoff := (readU64LE data 40).getD 0
            e_shnum := (readU16LE data 60).getD 0
            e_shstrndx := (readU16LE data 62).getD 0 }⟩)
      else .ok none

/-- The section-header fields the code reads. -/
structure SectionHeaderFields where
  sh_name : Nat
  sh_type : Nat
  sh_offset : Nat
  sh_size : Nat
  deriving DecidableEq, Repr

/-- Read the section header at table index `idx` (32-bit layout: 40-byte
entries; 64-bit layout: 64-byte entries). `none` when the unchecked raw
read would leave the image. -/
def readShAt (is64 : Bool) (data : List Nat) (shoff idx : Nat) :
    Option SectionHeaderFields :=
  if is64 then do
    let base := shoff + 64 * idx
    let nm ← readU32LE data base
    let ty ← readU32LE data (base + 4)
    let off ← readU64LE data (base + 24)
    let sz ← readU64LE data (base + 32)
    pure ⟨nm, ty, off, sz⟩
  else do
    let base := shoff + 40 * idx
    let nm ← readU32LE data base
    let ty ← readU32LE data (base + 4)
    let off ← readU32LE data (base + 16)
    let sz ← readU32LE data (base + 20)
    pure ⟨nm, ty, off, sz⟩

/-- The `for sh in section_headers` loop of `find_section_by_name`:
`remaining` counts the entries not yet visited, `idx` the next entry. -/
def findSectionLoop (is64 : Bool) (data names name : List Nat) (kind shoff : Nat) :
    Nat → Nat → PResult (Option (List Nat))
  | 0, _ => .ok none
  | remaining + 1, idx =>
    match readShAt is64 data shoff idx with
    | none => .panicked
    | some sh =>
      let nameEnd := sh.sh_name + name.length
      if nameEnd > names.length then
        findSectionLoop is64 data names name kind shoff remaining (idx + 1)
      else
        let sectionName := (names.drop sh.sh_name).take name.length
        if sh.sh_type = kind ∧ sectionName = name then
          match rustSlice data sh.sh_offset (sh.sh_offset + sh.sh_size) with
          | .panicked => .panicked
          | .ok s => .ok (some s)
        else findSectionLoop is64 data names name kind shoff remaining (idx + 1)

/-- `MappedElf::find_section_by_name`. -/
def MappedElf.findSectionByName (m : MappedElf) (name : List Nat) (kind : Nat) :
    PResult (Option (List Nat)) :=
  let p : Bool × ElfHeaderFields :=
    match m.cls with
    | .class32 h => (false, h)
    | .class64 h => (true, h)
  let is64 := p.1
  let h := p.2
  if h.e_shoff = 0 then .ok none
  else if h.e_shstrndx ≥ h.e_shnum then .panicked
  else
    match readShAt is64 m.data h.e_shoff h.e_shstrndx with
    | none => .panicked
    | some namesSec =>
      match rustSlice m.data namesSec.sh_offset (namesSec.sh_offset + namesSec.sh_size) with
      | .panicked => .panicked
      | .ok names => findSectionLoop is64 m.data names name kind h.e_shoff h.e_shnum 0

/-- `NT_GNU_BUILD_ID`. -/
def NT_GNU_BUILD_ID : Nat := 3

/-- `MAX_ID_SIZE`. -/
def MAX_ID_SIZE : Nat := 64

/-- `ElfId::new`. -/
def elfIdNew (slice : List Nat) : Option (List Nat) :=
  if slice.length ≤ MAX_ID_SIZE then some slice else none

/-- The 32-bit-word alignment helper inside the note parser. -/
def alignUp4 (off : Nat) : Nat :=
  if off % 4 = 0 then off else off + (4 - off % 4)

/-- `ElfNote`'s `TryFromCtx`: parse one note at the head of `buf`, returning
(bytes consumed, note type, description bytes). Fails exactly when a
`gread` would run out of bounds. -/
def parseElfNote (buf : List Nat) : Option (Nat × Nat × List Nat) := do
  let nameSize ← readU32LE buf 0
  let descSize ← readU32LE buf 4
  let kind ← readU32LE buf 8
  let off := alignUp4 (12 + nameSize)
  if off + descSize ≤ buf.length then
    some (alignUp4 (off + descSize), kind, (buf.drop off).take descSize)
  else none

/-- The `while let Ok(note) = note_section.gread::<ElfNote>(offset)` loop of
`build_id_from_note`, with fuel. Each successful parse consumes at least 12
bytes, so `buf.length + 1` fuel can never run out; the fuel-exhausted result
is also `none`, matching the loop's fall-through. -/
def buildIdLoop (buf : List Nat) : Nat → Nat → Option (List Nat)
  | 0, _ => none
  | fuel + 1, off =>
    match parseElfNote (buf.drop off) with
    | none => none
    | some (consumed, kind, desc) =>
      if kind = NT_GNU_BUILD_ID ∧ desc.length ≤ MAX_ID_SIZE then some desc
      else buildIdLoop buf fuel (off + consumed)

/-- `build_id_from_note`. -/
def buildIdFromNote (buf : List Nat) : Option (List Nat) :=
  buildIdLoop buf (buf.length + 1) 0

/-- The program-header fields the code reads; the raw reads stay inside the
`ph_headers` slice by construction, so `getD 0` is never exercised. -/
structure PhFields where
  p_type : Nat
  p_offset : Nat
  p_filesz : Nat
  deriving DecidableEq, Repr

/-- Read the program header at index `idx` of the `ph_headers` slice
(32-bit layout: 32-byte entries; 64-bit layout: 56-byte entries). -/
def readPhAt (is64 : Bool) (phSlice : List Nat) (idx : Nat) : PhFields :=
  if is64 then
    { p_type := (readU32LE phSlice (56 * idx)).getD 0
      p_offset := (readU64LE phSlice (56 * idx + 8)).getD 0
      p_filesz := (readU64LE phSlice (56 * idx + 32)).getD 0 }
  else
    { p_type := (readU32LE phSlice (32 * idx)).getD 0
      p_offset := (readU32LE phSlice (32 * idx + 4)).getD 0
      p_filesz := (readU32LE phSlice (32 * idx + 16)).getD 0 }

/-- `PT_NOTE`. -/
def PT_NOTE : Nat := 4

/-- The `for note in melf.iter_segments(PT_NOTE)` loop of
`from_mapped_file`: walk the program headers in order and return the first
build id found in a `PT_NOTE` segment (the iterator is lazy, so later
segments are not sliced once one yields an id). -/
def segmentsLoop (is64 : Bool) (data phSlice : List Nat) :
    Nat → Nat → PResult (Option (List Nat))
  | 0, _ => .ok none
  | remaining + 1, idx =>
    let ph := readPhAt is64 phSlice idx
    if ph.p_type = PT_NOTE then
      match rustSlice data ph.p_offset (ph.p_offset + ph.p_filesz) with
      | .panicked => .panicked
      | .ok seg =>
        match buildIdFromNote seg with
        | some id => .ok (some id)
        | none => segmentsLoop is64 data phSlice remaining (idx + 1)
    else segmentsLoop is64 data phSlice remaining (idx + 1)

/-- The PT_NOTE scan of `from_mapped_file` (strategy 1). -/
def segmentsBuildId (m : MappedElf) : PResult (Option (List Nat)) :=
  let p : Bool × ElfHeaderFields :=
    match m.cls with
    | .class32 h => (false, h)
    | .class64 h => (true, h)
  let is64 := p.1
  let h := p.2
  let phEntrySize := if is64 then 56 else 32
  match rustSlice m.data h.e_phoff (h.e_phoff + phEntrySize * h.e_phnum) with
  | .panicked => .panicked
  | .ok phSlice => segmentsLoop is64 m.data phSlice h.e_phnum 0

/-- `".note.gnu.build-id"` as bytes. -/
def noteSectionName : List Nat := ".note.gnu.build-id".toList.map Char.toNat

/-- `".text"` as bytes. -/
def textSectionName : List Nat := ".text".toList.map Char.toNat

/-- `SHT_NOTE`. -/
def SHT_NOTE : Nat := 7

/-- `SHT_PROGBITS`. -/
def SHT_PROGBITS : Nat := 1

/-- The XOR fold of `hash_text_section` over the 16-byte exact chunks of the
first page. -/
def hashIdentifier (firstPage : List Nat) : List Nat :=
  (List.range (firstPage.length / 16)).foldl
    (fun id k => id.zipWith (fun a b => a ^^^ b) ((firstPage.drop (16 * k)).take 16))
    (List.replicate 16 0)

/-- `hash_text_section` (strategy 3). The source `.unwrap()`s the `.text`
lookup, so a missing section panics. -/
def hashTextSection (m : MappedElf) : PResult (Option (List Nat)) :=
  match m.findSectionByName textSectionName SHT_PROGBITS with
  | .panicked => .panicked
  | .ok none => .panicked
  | .ok (some text) =>
    let firstPage := text.take (min text.length 4096)
    .ok (elfIdNew (hashIdentifier firstPage))

/-- `ElfId::from_mapped_file`. Note the source `.unwrap()`s the result of
`MappedElf::read`, so a malformed image panics instead of producing `None`. -/
def fromMappedFile (data : List Nat) : PResult (Option (List Nat)) :=
  match MappedElf.read data with
  | .panicked => .panicked
  | .ok none => .panicked
  | .ok (some melf) =>
    match segmentsBuildId melf with
    | .panicked => .panicked
    | .ok (some id) => .ok (some id)
    | .ok none =>
      match melf.findSectionByName noteSectionName SHT_NOTE with
      | .panicked => .panicked
      | .ok sec =>
        match sec.bind buildIdFromNote with
        | some id => .ok (some id)
        | none => hashTextSection melf

/-!
## `LineReader` (src/breakpad-handler/src/utils/line_reader.rs)

The buffer is represented by its filled prefix `buffer` (so
`filled = buffer.length`) together with the read `cursor`; `N` is the
capacity. The wrapped `Read` source is a list of chunks: each `read()` call
returns as much of the first chunk as fits in the free space, and `0` bytes
(EOF, per the `Read` contract interpretation in the source) when the source
is exhausted or the free space is empty. Lines are `FixedStr<N>` values,
modelled as their byte lists (`from_slice` fails for slices longer than `N`,
making `next` return `None`).
-/

/-- Line reader state: remaining source chunks, filled buffer prefix, read
cursor, and the EOF flag. -/
structure LRState where
  chunks : List (List Nat)
  buffer : List Nat
  cursor : Nat
  eofF : Bool
  deriving DecidableEq, Repr

/-- Total bytes left in the source. -/
def sourceLen (chunks : List (List Nat)) : Nat := (chunks.map List.length).sum

/-- Index of the first newline byte, if any. -/
def firstNl : List Nat → Option Nat
  | [] => none
  | b :: rest => if b = 10 then some 0 else (firstNl rest).map (· + 1)

/-- `FixedStr::<N>::from_slice`. -/
def fixedStrFromSlice (N : Nat) (buf : List Nat) : Option (List Nat) :=
  if buf.length > N then none else some buf

/-- The `loop` of `LineReader::next`, with explicit fuel counting loop
iterations. Mirrors the source iteration for iteration: the EOF branch, the
newline scan from `cursor`, the overlong-line bail-out, compaction
(modelled by dropping the consumed prefix), and the `read` call (which
returns as much of the first chunk as fits in the free space, and 0 bytes —
EOF under the `Read` contract — when the source is exhausted or the free
space is empty). The fuel-exhausted fallback is never reached from
`lrNext`, whose fuel covers every possible iteration count, as the
correctness theorem below establishes. -/
def lrLoopF (N : Nat) : Nat → List (List Nat) → List Nat → Nat → Bool →
    Option (List Nat) × LRState
  | 0, chunks, buffer, cursor, eofF => (none, ⟨chunks, buffer, cursor, eofF⟩)
  | fuel + 1, chunks, buffer, cursor, eofF =>
    if eofF then
      if cursor < buffer.length then
        (fixedStrFromSlice N (buffer.drop cursor), ⟨chunks, buffer, buffer.length, true⟩)
      else (none, ⟨chunks, buffer, cursor, true⟩)
    else
      match firstNl (buffer.drop cursor) with
      | some j =>
        (fixedStrFromSlice N ((buffer.drop cursor).take j),
          ⟨chunks, buffer, cursor + j + 1, false⟩)
      | none =>
        if cursor < buffer.length ∧ cursor = 0 ∧ buffer.length = N then
          -- A single line is too long to fit
          (none, ⟨chunks, buffer, cursor, false⟩)
        else
          match chunks with
          | [] => lrLoopF N fuel [] (buffer.drop cursor) 0 true
          | c :: rest =>
            if (c.take (N - (buffer.drop cursor).length)).length = 0 then
              lrLoopF N fuel (c :: rest) (buffer.drop cursor) 0 true
            else
              lrLoopF N fuel
                (if c.length ≤ N - (buffer.drop cursor).length then rest
                 else c.drop (N - (buffer.drop cursor).length) :: rest)
                (buffer.drop cursor ++ c.take (N - (buffer.drop cursor).length)) 0 false

/-- `LineReader::next`. One loop iteration either returns, moves at least
one source byte into the buffer, or flips the EOF flag and returns on the
next pass, so `sourceLen + 2` iterations always suffice. -/
def lrNext (N : Nat) (st : LRState) : Option (List Nat) × LRState :=
  if st.eofF then (none, st)
  else lrLoopF N (sourceLen st.chunks + 2) st.chunks st.buffer st.cursor false

/-- Drive the iterator to exhaustion, collecting the yielded lines
(`fuel` bounds the number of `next` calls; `input.length + 1` always
suffices, which the correctness theorem makes precise). -/
def lrRun (N : Nat) : Nat → LRState → List (List Nat)
  | 0, _ => []
  | fuel + 1, st =>
    match lrNext N st with
    | (none, _) => []
    | (some line, st2) => line :: lrRun N fuel st2

/-- The initial state of `LineReader::new` over a chunked source. -/
def lrInit (chunks : List (List Nat)) : LRState :=
  ⟨chunks, [], 0, false⟩

/-- Split a byte stream on newline bytes: every segment between newlines,
plus a final unterminated segment when nonempty. -/
def linesOfAux : List Nat → List Nat → List (List Nat)
  | acc, [] => if acc = [] then [] else [acc]
  | acc, b :: rest =>
    if b = 10 then acc :: linesOfAux [] rest else linesOfAux (acc ++ [b]) rest

/-- The lines of a whole input, including a final unterminated line. -/
def linesOf (input : List Nat) : List (List Nat) := linesOfAux [] input

/-- What one `next` call yields, as a function of the remaining stream
`rem`: a full line shorter than the capacity (with a well-formed successor
state), `None` for an over-capacity line, the final unterminated line at
EOF, or `None` at end of stream. -/
def LrPost (N : Nat) (r : Option (List Nat) × LRState) (rem : List Nat) : Prop :=
  match firstNl rem with
  | some j =>
    if j < N then
      ∃ ck bf cr, r = (some (rem.take j), ⟨ck, bf, cr, false⟩) ∧
        cr ≤ bf.length ∧ bf.length ≤ N ∧ (∀ c ∈ ck, c ≠ []) ∧
        bf.drop cr ++ ck.join = rem.drop (j + 1)
    else r.1 = none
  | none =>
    if rem = [] then r.1 = none
    else if rem.length < N then ∃ st2, r = (some rem, st2) ∧ st2.eofF = true
    else r.1 = none

/-!
## Synthesized ELF images

Concrete-layout test images (in the spirit of the repo's `synth-elf`
helpers) used to state C3: a class-32 image carrying a GNU build-id note in
a named `.note.gnu.build-id` section, and a class-64 image carrying it in a
`PT_NOTE` program segment. The note's description bytes are the only
non-constant part; the note region has a fixed 80-byte footprint
(zero-padded), which the lazy note parser never looks past.
-/

/-- A GNU build-id note ("GNU\0" name, type `NT_GNU_BUILD_ID`) followed by
zero padding to an 80-byte region; well-formed for `desc.length ≤ 64`. -/
def noteRegion (desc : List Nat) : List Nat :=
  u32le 4 ++ u32le desc.length ++ u32le NT_GNU_BUILD_ID ++
    [71, 78, 85, 0] ++ desc ++ List.replicate (64 - desc.length) 0

/-- A 32-bit section header (40 bytes); only the fields the parser reads are
nonzero. -/
def mkSh32 (shName shType shOffset shSize : Nat) : List Nat :=
  u32le shName ++ u32le shType ++ u32le 0 ++ u32le 0 ++ u32le shOffset ++
    u32le shSize ++ u32le 0 ++ u32le 0 ++ u32le 0 ++ u32le 0

/-- `"\0.note.gnu.build-id\0"`: the section-name string table. -/
def strtabBytes : List Nat := 0 :: noteSectionName ++ [0]

/-- Class-32 ELF header: no program headers; section table of 3 entries at
offset 52; string table is section 1. -/
def ehdr32 : List Nat :=
  [0x7f, 0x45, 0x4c, 0x46, 1, 1, 1, 0, 0, 0, 0, 0, 0, 0, 0, 0] ++
    u16le 2 ++ u16le 3 ++ u32le 1 ++ u32le 0 ++ u32le 0 ++ u32le 52 ++
    u32le 0 ++ u16le 52 ++ u16le 32 ++ u16le 0 ++ u16le 40 ++ u16le 3 ++ u16le 1

/-- Everything before the note region in the class-32 image: header (52),
three section headers (120), string table (20) — 192 bytes. The note
section is entry 2: name index 1, `SHT_NOTE`, offset 192, size 80. -/
def fixedPart32 : List Nat :=
  ehdr32 ++ mkSh32 0 0 0 0 ++ mkSh32 0 3 172 20 ++ mkSh32 1 SHT_NOTE 192 80 ++
    strtabBytes

/-- Class-32 image with the given build-id note description. -/
def synthElf32 (desc : List Nat) : List Nat := fixedPart32 ++ noteRegion desc

/-- Class-64 ELF header: one program header at offset 64, no section table. -/
def ehdr64 : List Nat :=
  [0x7f, 0x45, 0x4c, 0x46, 2, 1, 1, 0, 0, 0, 0, 0, 0, 0, 0, 0] ++
    u16le 2 ++ u16le 62 ++ u32le 1 ++ u64le 0 ++ u64le 64 ++ u64le 0 ++
    u32le 0 ++ u16le 64 ++ u16le 56 ++ u16le 1 ++ u16le 64 ++ u16le 0 ++ u16le 0

/-- The single `PT_NOTE` program header (56 bytes): file range
`[120, 120 + 80)`. -/
def ph64 : List Nat :=
  u32le PT_NOTE ++ u32le 0 ++ u64le 120 ++ u64le 0 ++ u64le 0 ++ u64le 80 ++
    u64le 80 ++ u64le 4

/-- Everything before the note region in the class-64 image: 120 bytes. -/
def fixedPart64 : List Nat := ehdr64 ++ ph64

/-- Class-64 image with the given build-id note description. -/
def synthElf64 (desc : List Nat) : List Nat := fixedPart64 ++ noteRegion desc

/-- `Error::InvalidMapping`, the only error `from_str` produces. -/
inductive MapParseErr where
  | invalidMapping
  deriving DecidableEq, Repr

/-- `MappingInfo::from_str`: `do_parse(line).ok_or(Error::InvalidMapping)`. -/
def mappingInfoFromStr (line : List Char) : PResult (Except MapParseErr MappingInfo) :=
  match mappingInfoDoParse line with
  | .panicked => .panicked
  | .ok none => .ok (.error .invalidMapping)
  | .ok (some m) => .ok (.ok m)

/-- A bare class-32 header (52 bytes) with no program headers and no
section table: `from_mapped_file` finds no note and then panics unwrapping
the missing `.text` section. -/
def bareElf32 : List Nat :=
  [0x7f, 0x45, 0x4c, 0x46, 1, 1, 1, 0, 0, 0, 0, 0, 0, 0, 0, 0] ++
    u16le 2 ++ u16le 3 ++ u32le 1 ++ u32le 0 ++ u32le 0 ++ u32le 0 ++
    u32le 0 ++ u16le 52 ++ u16le 32 ++ u16le 0 ++ u16le 40 ++ u16le 0 ++ u16le 0

/-- The allocator invariant tying the handed-out regions to the state: the
blocks are pairwise disjoint, every returned region sits inside a block,
regions are pairwise disjoint, and the current page (when present) sits
inside a block with its free tail `[start+offset, start+pageSize)` disjoint
from every returned region. -/
def AllocInv (ps : Nat) (st : PageAllocator) (regions : List (Nat × Nat)) : Prop :=
  List.Pairwise (blockDisjoint ps) st.blocks ∧
  (∀ r ∈ regions, regionInBlocks ps st r) ∧
  List.Pairwise regionsDisjoint regions ∧
  (∀ s o, st.currentPage = some (s, o) → 0 < o ∧ o < ps ∧
    (∃ b ∈ st.blocks, b.base ≤ s ∧ s + ps ≤ b.base + b.numPages * ps) ∧
    (∀ r ∈ regions, r.1 + r.2 ≤ s + o ∨ s + ps ≤ r.1))

/-- The record produced by merging line `b` into record `last`. -/
def mergedRec (last b : MappingInfo) : MappingInfo :=
  { last with
      sys_end_addr := b.sys_end_addr
      size := b.sys_end_addr - last.start_addr
      has_exec := last.has_exec || b.has_exec }

instance : DecidablePred wfLine := fun l => by
  unfold wfLine; infer_instance

/-- A concrete parsed map line (used to witness C5). -/
def mapLineA : MappingInfo :=
  { start_addr := 0, size := 16, sys_start_addr := 0, sys_end_addr := 16,
    offset := 0, has_exec := false, name := ['/', 'x'] }

/-- A second concrete parsed map line, contiguous with `mapLineA`, same
name, executable (non-decreasing flag). -/
def mapLineB : MappingInfo :=
  { start_addr := 16, size := 16, sys_start_addr := 16, sys_end_addr := 32,
    offset := 16, has_exec := true, name := ['/', 'x'] }

/-!
# Theorems
-/

/-- C8: the anonymous `rw-p` map line parses to start `0x57942200000`, size
`0x100000`, offset `0`, not executable, empty name; the libpthread line
parses to start `0x7feca169f000`, size `0x1000`, offset `0x1b000`, not
executable, with the full path preserved as the name. -/
theorem mappingInfo_fromStr_concrete_lines :
    mappingInfoFromStr "57942200000-57942300000 rw-p 00000000 00:00 0".toList =
      .ok (.ok
        { start_addr := 0x57942200000
          size := 0x100000
          sys_start_addr := 0x57942200000
          sys_end_addr := 0x57942300000
          offset := 0
          has_exec := false
          name := [] }) ∧
    mappingInfoFromStr
        "7feca169f000-7feca16a0000 rw-p 0001b000 fd:00 1705088   /usr/lib64/libpthread-2.33.so".toList =
      .ok (.ok
        { start_addr := 0x7feca169f000
          size := 0x1000
          sys_start_addr := 0x7feca169f000
          sys_end_addr := 0x7feca16a0000
          offset := 0x1b000
          has_exec := false
          name := "/usr/lib64/libpthread-2.33.so".toList }) := by
  constructor <;> rfl

/-- C6: `suspend_threads` keeps exactly the threads the attach oracle
accepts (position by position), drops the rest to `None`, and returns `Ok`
iff at least one thread survives (`Err(NoValidThreads)` exactly when none
does). -/
theorem suspendThreads_drop_and_error (attachOk : Nat → Bool)
    (threads : List (Option Nat)) :
    (suspendThreads attachOk threads).1.length = threads.length ∧
    (∀ i tid, threads.get? i = some (some tid) →
      (suspendThreads attachOk threads).1.get? i =
        some (if attachOk tid then some tid else none)) ∧
    (∀ i, threads.get? i = some none →
      (suspendThreads attachOk threads).1.get? i = some none) ∧
    ((suspendThreads attachOk threads).2 = false ↔
      ∀ o ∈ (suspendThreads attachOk threads).1, o = none) := by
  refine ⟨by simp [suspendThreads], ?_, ?_, ?_⟩
  · intro i tid h
    simp only [suspendThreads, List.get?_map, h, Option.map_some']
  · intro i h
    simp only [suspendThreads, List.get?_map, h, Option.map_some']
  · simp only [suspendThreads]
    rw [← Bool.not_eq_true, List.any_eq_true]
    push_neg
    constructor
    · intro h o ho
      have := h o ho
      cases o <;> simp_all
    · intro h o ho
      rw [h o ho]
      simp

/-- C2 (refuting evaluation): `ElfId::from_mapped_file` panics on malformed
input instead of returning `None`: the empty slice panics in `&data[..4]`,
a 4-byte wrong-magic slice makes `MappedElf::read` return `None` which
`from_mapped_file` `.unwrap()`s, a magic-only truncated image with an
unknown class byte panics the same way, and an image with neither a note
nor a `.text` section panics inside `hash_text_section`'s `.unwrap()`. -/
theorem fromMappedFile_panics_on_malformed :
    fromMappedFile [] = .panicked ∧
    fromMappedFile [0, 0, 0, 0] = .panicked ∧
    fromMappedFile [0x7f, 0x45, 0x4c, 0x46, 9] = .panicked ∧
    fromMappedFile bareElf32 = .panicked := by
  refine ⟨rfl, rfl, rfl, rfl⟩

/-- The `while sp <= end` loop never advances past a word that is kept:
every `continue` path leaves `sp` unchanged, so on a buffer whose first
in-range word is a small integer the loop runs forever (modelled: every
fuel bound is exhausted). -/
theorem sanitizeLoop_stuck_on_small_word (ms : List MappingInfo)
    (sm lastHit0 : Option MappingInfo) (arr bytes : List Nat) (endIdx sp : Nat)
    (hsp : sp ≤ endIdx) (hsmall : isSmallInt (readWordAt bytes sp) = true) :
    ∀ fuel, sanitizeLoop ms sm arr endIdx fuel bytes sp lastHit0 = none := by
  intro fuel
  induction fuel with
  | zero => rfl
  | succ n ih =>
    unfold sanitizeLoop
    rw [if_pos hsp, if_pos hsmall]
    exact ih

/-- C1 (refuting evaluation): `sanitize_stack` does not terminate on an
8-byte all-zero stack buffer with offset 0 and no mappings — the word `0` is
a small integer, the `continue` skips the `sp` increment, and the loop spins
on the same word forever; no fuel bound suffices. -/
theorem sanitizeStack_diverges (fuel : Nat) :
    sanitizeStack fuel [] (List.replicate 8 0) 0 0 = .ok none := by
  have h := sanitizeLoop_stuck_on_small_word [] (findMappingNoBias [] 0)
    none (buildCouldHit []) (List.replicate 8 0) ((List.replicate (8 : Nat) (0 : Nat)).length - 8)
    ((0 + 7) / 8 * 8) (by decide) (by decide) fuel
  simp only [sanitizeStack]
  rw [if_neg (by decide)]
  rw [if_neg (by decide), h]

/-- C9 counterexample: a write through `FileWriter::write` is not bounded
by its reservation. Reserving 0 bytes and writing a 1-byte buffer at offset
0 succeeds and stores the byte outside the (empty) reserved range. -/
theorem fileWriter_write_escapes_reservation :
    ((FileWriter.new 4096).reserveRaw 0).1.size = 0 ∧
    ¬ writeSpanWithin ((FileWriter.new 4096).reserveRaw 0).1 0 [7] ∧
    (((FileWriter.new 4096).reserveRaw 0).2.write
        ((FileWriter.new 4096).reserveRaw 0).1 0 [7]).contents.get? 0 = some 7 := by
  refine ⟨rfl, ?_, rfl⟩
  intro h
  simp [writeSpanWithin, FileWriter.reserveRaw, FileWriter.new] at h

/-- C9 (amended): a reservation's recorded size equals the requested size
(and, being an immutable value, is never modified afterwards), and every
write through `FileWriter::write` whose `offset + buffer.len()` is at most
the reservation's size stays entirely within the reserved byte range
`[pos, pos + size)`. -/
theorem reserveRaw_size_and_bounded_write_within (fw : FileWriter) (size : Nat)
    (offset : Nat) (buffer : List Nat) (h : offset + buffer.length ≤ size) :
    (fw.reserveRaw size).1.size = size ∧
    writeSpanWithin (fw.reserveRaw size).1 offset buffer := by
  refine ⟨rfl, ?_⟩
  unfold writeSpanWithin
  have hs : (fw.reserveRaw size).1.size = size := rfl
  omega

/-- Witness for the amended C9 theorem at a concrete input. -/
theorem reserveRaw_size_and_bounded_write_within_witness :
    2 + ([5, 5] : List Nat).length ≤ 7 ∧
      (((FileWriter.new 4096).reserveRaw 7).1.size = 7 ∧
        writeSpanWithin ((FileWriter.new 4096).reserveRaw 7).1 2 [5, 5]) :=
  ⟨by decide, reserveRaw_size_and_bounded_write_within (FileWriter.new 4096) 7 2 [5, 5]
    (by decide)⟩

/-- C10: a (successful) `FileWriter::write` leaves the writer's append
position and recorded file length unchanged and returns the file cursor to
the append position, so any later `reserve_raw` hands out the same
reservation and performs the same position/length bookkeeping as if the
backfill write had not happened. -/
theorem fileWriter_write_frame (fw : FileWriter) (r : Reservation)
    (offset : Nat) (buffer : List Nat) :
    (fw.write r offset buffer).position = fw.position ∧
    (fw.write r offset buffer).len = fw.len ∧
    (fw.write r offset buffer).cursor = fw.position ∧
    (∀ size, ((fw.write r offset buffer).reserveRaw size).1 =
        (fw.reserveRaw size).1 ∧
      ((fw.write r offset buffer).reserveRaw size).2.pos =
        (fw.reserveRaw size).2.pos ∧
      ((fw.write r offset buffer).reserveRaw size).2.len =
        (fw.reserveRaw size).2.len) := by
  refine ⟨rfl, rfl, rfl, fun size => ?_⟩
  have hw : (fw.write r offset buffer).pos = fw.pos := rfl
  have hl : (fw.write r offset buffer).len = fw.len := rfl
  have hp : (fw.write r offset buffer).pageSize = fw.pageSize := rfl
  unfold FileWriter.reserveRaw
  rw [hw, hl, hp]
  by_cases hc : fw.len - fw.pos < size <;> simp [hc, hw, hl]

/-- One `alloc_raw` step preserves the allocator invariant, provided the
requested size is nonzero and any freshly mapped block is disjoint from the
blocks already owned. -/
theorem allocRaw_preserves (ps : Nat) (hps : 0 < ps) (st : PageAllocator)
    (regions : List (Nat × Nat)) (size freshBase : Nat) (hsz : 1 ≤ size)
    (hinv : AllocInv ps st regions)
    (hfresh : st.hitsCurrent ps size = false →
      ∀ b ∈ st.blocks,
        blockDisjoint ps ⟨freshBase, (size + pageHeaderSize + ps - 1) / ps⟩ b) :
    AllocInv ps (st.allocRaw ps freshBase size).2
      (regions ++ [((st.allocRaw ps freshBase size).1, size)]) := by
  obtain ⟨hbd, hreg, hrd, hcur⟩ := hinv
  by_cases hhit : st.hitsCurrent ps size = true
  · -- current-page hit
    obtain ⟨⟨s, o⟩, hcp⟩ : ∃ p, st.currentPage = some p := by
      unfold PageAllocator.hitsCurrent at hhit
      cases h : st.currentPage with
      | none => rw [h] at hhit; simp at hhit
      | some p => exact ⟨p, rfl⟩
    have hfit : size ≤ ps - o := by
      unfold PageAllocator.hitsCurrent at hhit
      rw [hcp] at hhit
      simpa using hhit
    obtain ⟨ho0, hops, ⟨b, hbmem, hbs, hbe⟩, hfree⟩ := hcur s o hcp
    have hra : st.allocRaw ps freshBase size =
        (s + o, { st with currentPage :=
          if o + size = ps then none else some (s, o + size) }) := by
      unfold PageAllocator.allocRaw
      rw [hcp]
      simp [hfit]
    rw [hra]
    refine ⟨hbd, ?_, ?_, ?_⟩
    · intro r hr
      rcases List.mem_append.mp hr with hr | hr
      · exact hreg r hr
      · simp at hr
        subst hr
        exact ⟨b, hbmem, by omega, by omega⟩
    · rw [List.pairwise_append]
      refine ⟨hrd, by simp [regionsDisjoint], ?_⟩
      intro r hr r2 hr2
      simp at hr2
      subst hr2
      have := hfree r hr
      unfold regionsDisjoint
      omega
    · intro s2 o2 hcp2
      simp only at hcp2
      split at hcp2
      · simp at hcp2
      · rename_i hne
        simp only [Option.some.injEq, Prod.mk.injEq] at hcp2
        obtain ⟨rfl, rfl⟩ := hcp2
        refine ⟨by omega, by omega, ⟨b, hbmem, hbs, hbe⟩, ?_⟩
        intro r hr
        rcases List.mem_append.mp hr with hr | hr
        · have := hfree r hr
          omega
        · simp at hr
          subst hr
          simp
          omega
  · -- miss: fresh block
    have hhit2 : st.hitsCurrent ps size = false := by simpa using hhit
    have hdisj := hfresh hhit2
    set n := (size + pageHeaderSize + ps - 1) / ps with hn
    have hmod := Nat.div_add_mod (size + pageHeaderSize + ps - 1) ps
    have hrlt := Nat.mod_lt (size + pageHeaderSize + ps - 1) hps
    rw [← hn] at hmod
    have hn1 : 1 ≤ n := by
      rcases Nat.eq_zero_or_pos n with h0 | h1
      · rw [h0] at hmod; omega
      · exact h1
    have hmul : ps * (n - 1) + ps = ps * n := by
      have h : n - 1 + 1 = n := Nat.sub_add_cancel hn1
      calc ps * (n - 1) + ps = ps * (n - 1 + 1) := by ring
        _ = ps * n := by rw [h]
    have hcap : size + pageHeaderSize ≤ ps * n := by omega
    have hslack : ps * n - (size + pageHeaderSize) < ps := by omega
    have hra : st.allocRaw ps freshBase size = st.allocFresh ps freshBase size := by
      unfold PageAllocator.allocRaw
      unfold PageAllocator.hitsCurrent at hhit2
      rcases hcp : st.currentPage with _ | ⟨s, o⟩
      · rfl
      · rw [hcp] at hhit2
        simp only [decide_eq_false_iff_not] at hhit2
        simp only [hhit2, if_false]
    set slack := ps * n - (size + pageHeaderSize) with hslk
    set offset := (ps - slack) % ps with hoff
    have hofflt : offset < ps := Nat.mod_lt _ hps
    have hoffeq : slack > 0 → offset = ps - slack := fun h =>
      Nat.mod_eq_of_lt (by omega)
    have hoff0 : slack = 0 → offset = 0 := by
      intro h
      rw [hoff, h, Nat.sub_zero, Nat.mod_self]
    have hnewreg : ∀ r ∈ regions, r.1 + r.2 ≤ freshBase ∨
        freshBase + n * ps ≤ r.1 := by
      intro r hr
      obtain ⟨b0, hb0, hlo, hhi⟩ := hreg r hr
      have hd := hdisj b0 hb0
      unfold blockDisjoint at hd
      simp only at hd
      have : n * ps = ps * n := Nat.mul_comm _ _
      omega
    have hcomm : n * ps = ps * n := Nat.mul_comm _ _
    rw [hra]
    have hfa : st.allocFresh ps freshBase size =
        (freshBase + pageHeaderSize,
          { blocks := ⟨freshBase, n⟩ :: st.blocks
            currentPage :=
              if offset ≠ 0 then some (freshBase + ps * (n - 1), offset)
              else st.currentPage
            totalAllocatedPages := st.totalAllocatedPages + n }) := by
      unfold PageAllocator.allocFresh
      simp only [← hn, ← hslk, ← hoff]
      split <;> rfl
    rw [hfa]
    refine ⟨List.pairwise_cons.mpr ⟨hdisj, hbd⟩, ?_, ?_, ?_⟩
    · -- regions in blocks
      intro r hr
      rcases List.mem_append.mp hr with hr | hr
      · obtain ⟨b0, hb0, hlo, hhi⟩ := hreg r hr
        exact ⟨b0, List.mem_cons_of_mem _ hb0, hlo, hhi⟩
      · simp at hr
        subst hr
        refine ⟨⟨freshBase, n⟩, List.mem_cons_self _ _, by
          show freshBase ≤ freshBase + pageHeaderSize
          omega, by
          show freshBase + pageHeaderSize + size ≤ freshBase + n * ps
          omega⟩
    · -- regions pairwise disjoint
      rw [List.pairwise_append]
      refine ⟨hrd, by simp [regionsDisjoint], ?_⟩
      intro r hr r2 hr2
      simp at hr2
      subst hr2
      have := hnewreg r hr
      unfold regionsDisjoint
      simp only
      omega
    · -- current page
      intro s2 o2 hcp2
      simp only at hcp2
      by_cases hoz : offset ≠ 0
      · rw [if_pos hoz] at hcp2
        simp only [Option.some.injEq, Prod.mk.injEq] at hcp2
        obtain ⟨hs2, ho2⟩ := hcp2
        subst hs2
        subst ho2
        have hszpos : slack > 0 := by
          by_contra h
          exact hoz (hoff0 (by omega))
        have heq := hoffeq hszpos
        refine ⟨by omega, hofflt, ?_, ?_⟩
        · refine ⟨⟨freshBase, n⟩, List.mem_cons_self _ _, by
            show freshBase ≤ freshBase + ps * (n - 1)
            omega, by
            show freshBase + ps * (n - 1) + ps ≤ freshBase + n * ps
            omega⟩
        · intro r hr
          rcases List.mem_append.mp hr with hr | hr
          · have := hnewreg r hr
            omega
          · simp at hr
            subst hr
            simp only
            left
            omega
      · rw [if_neg hoz] at hcp2
        push_neg at hoz
        have hsz0 : slack = 0 := by
          by_contra h
          have := hoffeq (by omega)
          omega
        obtain ⟨ho0, hops2, ⟨b0, hb0, hbs0, hbe0⟩, hfree0⟩ := hcur s2 o2 hcp2
        refine ⟨ho0, hops2, ⟨b0, List.mem_cons_of_mem _ hb0, hbs0, hbe0⟩, ?_⟩
        intro r hr
        rcases List.mem_append.mp hr with hr | hr
        · exact hfree0 r hr
        · simp at hr
          subst hr
          simp only
          have hd := hdisj b0 hb0
          unfold blockDisjoint at hd
          simp only at hd
          omega

/-- The disjointness flag of a run is monotone: if it ends `true`, it was
`true` at every prefix. -/
theorem foldl_allocStep_flag (ps : Nat) :
    ∀ (ops : List (Nat × Nat)) (acc : PageAllocator × List (Nat × Nat) × Bool),
      (ops.foldl (allocStep ps) acc).2.2 = true → acc.2.2 = true := by
  intro ops
  induction ops with
  | nil => intro acc h; exact h
  | cons op rest ih =>
    intro acc h
    have h2 := ih (allocStep ps acc op) h
    unfold allocStep at h2
    simp only [Bool.and_eq_true] at h2
    exact h2.1

/-- A run of `alloc_raw` requests with nonzero sizes and kernel-disjoint
fresh blocks maintains the allocator invariant. -/
theorem foldl_allocStep_inv (ps : Nat) (hps : 0 < ps) :
    ∀ (ops : List (Nat × Nat)) (acc : PageAllocator × List (Nat × Nat) × Bool),
      AllocInv ps acc.1 acc.2.1 → (∀ op ∈ ops, 1 ≤ op.1) →
      (ops.foldl (allocStep ps) acc).2.2 = true →
      AllocInv ps (ops.foldl (allocStep ps) acc).1
        (ops.foldl (allocStep ps) acc).2.1 := by
  intro ops
  induction ops with
  | nil => intro acc hinv _ _; exact hinv
  | cons op rest ih =>
    intro acc hinv hsz hflag
    have hstep : (allocStep ps acc op).2.2 = true :=
      foldl_allocStep_flag ps rest _ hflag
    have hfr : (if acc.1.hitsCurrent ps op.1 then true
        else acc.1.blocks.all (fun b =>
          decide (blockDisjoint ps ⟨op.2, (op.1 + pageHeaderSize + ps - 1) / ps⟩ b))) = true := by
      unfold allocStep at hstep
      simp only [Bool.and_eq_true] at hstep
      exact hstep.2
    have hinv2 : AllocInv ps (allocStep ps acc op).1 (allocStep ps acc op).2.1 := by
      unfold allocStep
      exact allocRaw_preserves ps hps acc.1 acc.2.1 op.1 op.2
        (hsz op (List.mem_cons_self _ _)) hinv
        (by
          intro hmiss b hb
          rw [if_neg (by simp [hmiss])] at hfr
          have := List.all_eq_true.mp hfr b hb
          exact of_decide_eq_true this)
    exact ih (allocStep ps acc op) hinv2
      (fun o ho => hsz o (List.mem_cons_of_mem _ ho)) hflag

/-- Each request of a run contributes one region of exactly the requested
size, in order. -/
theorem foldl_allocStep_sizes (ps : Nat) :
    ∀ (ops : List (Nat × Nat)) (acc : PageAllocator × List (Nat × Nat) × Bool),
      ((ops.foldl (allocStep ps) acc).2.1).map Prod.snd =
        acc.2.1.map Prod.snd ++ ops.map Prod.fst := by
  intro ops
  induction ops with
  | nil => intro acc; simp
  | cons op rest ih =>
    intro acc
    rw [List.foldl_cons, ih]
    unfold allocStep
    simp

/-- Every address of a region inside the allocator's blocks is owned
according to `owns_pointer`. -/
theorem regionInBlocks_owns (ps : Nat) (st : PageAllocator) (r : Nat × Nat)
    (h : regionInBlocks ps st r) :
    ∀ a, r.1 ≤ a → a < r.1 + r.2 → st.ownsPointer ps a = true := by
  obtain ⟨b, hb, hlo, hhi⟩ := h
  intro a ha1 ha2
  unfold PageAllocator.ownsPointer
  rw [List.any_eq_true]
  exact ⟨b, hb, by simp; omega⟩

/-- On a miss, `alloc_raw` maps exactly
`ceil((header + requested size) / page size)` whole pages, and keeps the
leftover tail of the last page (when there is one) as the new current
page. -/
theorem allocRaw_miss_pages (ps : Nat) (hps : 0 < ps) (st : PageAllocator)
    (size base : Nat) (hsz : 1 ≤ size) (hmiss : st.hitsCurrent ps size = false) :
    (st.allocRaw ps base size).2.totalAllocatedPages =
      st.totalAllocatedPages + (size + pageHeaderSize + ps - 1) / ps ∧
    ((size + pageHeaderSize) % ps ≠ 0 →
      (st.allocRaw ps base size).2.currentPage =
        some (base + ps * ((size + pageHeaderSize + ps - 1) / ps - 1),
          (size + pageHeaderSize) % ps)) ∧
    ((size + pageHeaderSize) % ps = 0 →
      (st.allocRaw ps base size).2.currentPage = st.currentPage) := by
  have hra : st.allocRaw ps base size = st.allocFresh ps base size := by
    unfold PageAllocator.allocRaw
    unfold PageAllocator.hitsCurrent at hmiss
    rcases hcp : st.currentPage with _ | ⟨s, o⟩
    · rfl
    · rw [hcp] at hmiss
      simp only [decide_eq_false_iff_not] at hmiss
      simp only [hmiss, if_false]
  set n := (size + pageHeaderSize + ps - 1) / ps with hn
  have hmod := Nat.div_add_mod (size + pageHeaderSize + ps - 1) ps
  have hrlt := Nat.mod_lt (size + pageHeaderSize + ps - 1) hps
  rw [← hn] at hmod
  have hn1 : 1 ≤ n := by
    rcases Nat.eq_zero_or_pos n with h0 | h1
    · rw [h0] at hmod; omega
    · exact h1
  have hmul : ps * (n - 1) + ps = ps * n := by
    have h : n - 1 + 1 = n := Nat.sub_add_cancel hn1
    calc ps * (n - 1) + ps = ps * (n - 1 + 1) := by ring
      _ = ps * n := by rw [h]
  have hcap : size + pageHeaderSize ≤ ps * n := by omega
  have hslack : ps * n - (size + pageHeaderSize) < ps := by omega
  set slack := ps * n - (size + pageHeaderSize) with hslk
  -- (size + pageHeaderSize) % ps coincides with the source's offset formula
  have hmodeq : (size + pageHeaderSize) % ps = (ps - slack) % ps := by
    rcases Nat.eq_zero_or_pos slack with h0 | hpos
    · have : size + pageHeaderSize = ps * n := by omega
      rw [this, h0, Nat.sub_zero, Nat.mod_self, Nat.mul_mod_right]
    · have hlt : ps - slack < ps := by omega
      have hdecomp : size + pageHeaderSize = (ps - slack) + ps * (n - 1) := by omega
      rw [hdecomp, Nat.add_mul_mod_self_left, Nat.mod_eq_of_lt hlt]
  rw [hra]
  have htot : (st.allocFresh ps base size).2.totalAllocatedPages =
      st.totalAllocatedPages + n := by
    unfold PageAllocator.allocFresh
    simp only [← hn, ← hslk]
    split <;> rfl
  have hcpe : (st.allocFresh ps base size).2.currentPage =
      (if (ps - slack) % ps ≠ 0 then some (base + ps * (n - 1), (ps - slack) % ps)
       else st.currentPage) := by
    unfold PageAllocator.allocFresh
    simp only [← hn, ← hslk]
    by_cases ho : (ps - slack) % ps ≠ 0
    · simp only [if_pos ho]
    · simp only [if_neg ho]
  refine ⟨htot, ?_, ?_⟩
  · intro hne
    rw [hmodeq] at hne
    rw [hcpe, if_pos hne, hmodeq]
  · intro he
    rw [hmodeq] at he
    rw [hcpe, if_neg (by simpa using he)]

/-- C4: for every sequence of successful `alloc_raw` requests with sizes
≥ 1 (page size positive, freshly mmapped blocks disjoint as the kernel
guarantees), the returned regions are pairwise non-overlapping and each has
the requested size; every address inside a returned region is owned per
`owns_pointer` (which holds exactly for addresses inside allocated page
blocks); and a request that cannot be served from the current page maps
exactly `ceil((header size + requested size) / page size)` whole pages,
keeping a nonempty leftover tail of the last page as the new current
page. -/
theorem pageAllocator_alloc_raw_sound (ps : Nat) (ops : List (Nat × Nat))
    (hps : 0 < ps) (hsz : ∀ op ∈ ops, 1 ≤ op.1)
    (hfresh : (runAllocs ps ops).2.2 = true) :
    List.Pairwise regionsDisjoint (runAllocs ps ops).2.1 ∧
    ((runAllocs ps ops).2.1.map Prod.snd = ops.map Prod.fst) ∧
    (∀ r ∈ (runAllocs ps ops).2.1, ∀ a, r.1 ≤ a → a < r.1 + r.2 →
      (runAllocs ps ops).1.ownsPointer ps a = true) ∧
    (∀ (st : PageAllocator) (size base : Nat), 1 ≤ size →
      st.hitsCurrent ps size = false →
      ((st.allocRaw ps base size).2.totalAllocatedPages =
        st.totalAllocatedPages + (size + pageHeaderSize + ps - 1) / ps ∧
      ((size + pageHeaderSize) % ps ≠ 0 →
        (st.allocRaw ps base size).2.currentPage =
          some (base + ps * ((size + pageHeaderSize + ps - 1) / ps - 1),
            (size + pageHeaderSize) % ps)) ∧
      ((size + pageHeaderSize) % ps = 0 →
        (st.allocRaw ps base size).2.currentPage = st.currentPage))) := by
  have hinv0 : AllocInv ps PageAllocator.new ([] : List (Nat × Nat)) := by
    refine ⟨List.Pairwise.nil, by simp, List.Pairwise.nil, ?_⟩
    intro s o h
    simp [PageAllocator.new] at h
  have hinv := foldl_allocStep_inv ps hps ops (PageAllocator.new, [], true) hinv0 hsz hfresh
  obtain ⟨hbd, hreg, hrd, hcur⟩ := hinv
  refine ⟨hrd, ?_, ?_, ?_⟩
  · have := foldl_allocStep_sizes ps ops (PageAllocator.new, [], true)
    simpa [runAllocs] using this
  · intro r hr a ha1 ha2
    exact regionInBlocks_owns ps _ r (hreg r hr) a ha1 ha2
  · intro st size base h1 h2
    exact allocRaw_miss_pages ps hps st size base h1 h2


/-- Witness for C4 at a concrete run: page size 4096, a 1-byte allocation
followed by a 5000-byte allocation backed by a disjoint fresh block. -/
theorem pageAllocator_alloc_raw_sound_witness :
    (0 < 4096 ∧ (∀ op ∈ [((1 : Nat), (0 : Nat)), (5000, 4096)], 1 ≤ op.1) ∧
      (runAllocs 4096 [(1, 0), (5000, 4096)]).2.2 = true) ∧
    List.Pairwise regionsDisjoint (runAllocs 4096 [(1, 0), (5000, 4096)]).2.1 :=
  ⟨⟨by decide, by decide, by decide⟩,
    (pageAllocator_alloc_raw_sound 4096 [(1, 0), (5000, 4096)] (by decide)
      (by decide) (by decide)).1⟩

/-- The loop body of `enumerate_mappings` with no vdso fixup pending:
merge with the last record under the source's condition, else push. -/
theorem addMapping_none_last (acc : List MappingInfo) (b : MappingInfo) :
    addMapping none acc b =
      match acc.getLast? with
      | some last =>
        if b.start_addr = last.start_addr + last.size ∧ b.name = last.name ∧
            ((b.has_exec == last.has_exec) || (!last.has_exec && b.has_exec)) = true then
          acc.dropLast ++ [mergedRec last b]
        else acc ++ [b]
      | none => acc ++ [b] := by
  unfold addMapping mergedRec
  simp

/-- Tracking invariant: after folding `ls ++ [a]`, the last record carries
line `a`'s name, executable flag and end address (for an internally
consistent line `a`). -/
theorem addMapping_track :
    ∀ (ls : List MappingInfo) (a : MappingInfo) (acc : List MappingInfo),
      wfLine a →
      ∃ r, ((ls ++ [a]).foldl (addMapping none) acc).getLast? = some r ∧
        r.name = a.name ∧ r.has_exec = a.has_exec ∧
        r.start_addr + r.size = a.sys_end_addr ∧ r.sys_end_addr = a.sys_end_addr := by
  intro ls
  induction ls with
  | nil =>
    intro a acc hwf
    simp only [List.nil_append, List.foldl_cons, List.foldl_nil]
    rw [addMapping_none_last]
    rcases hl : acc.getLast? with _ | last
    · simp only [hl]
      refine ⟨a, by simp, rfl, rfl, ?_, rfl⟩
      unfold wfLine at hwf; omega
    · simp only [hl]
      by_cases hc : a.start_addr = last.start_addr + last.size ∧ a.name = last.name ∧
          ((a.has_exec == last.has_exec) || (!last.has_exec && a.has_exec)) = true
      · rw [if_pos hc]
        refine ⟨mergedRec last a, by simp, ?_, ?_, ?_, rfl⟩
        · unfold mergedRec; simp [hc.2.1]
        · unfold mergedRec
          simp only
          have h2 := hc.2.2
          cases hla : last.has_exec <;> cases hba : a.has_exec <;> simp_all
        · unfold mergedRec
          simp only
          unfold wfLine at hwf
          omega
      · rw [if_neg hc]
        refine ⟨a, by simp, rfl, rfl, by unfold wfLine at hwf; omega, rfl⟩
  | cons x ls2 ih =>
    intro a acc hwf
    rw [List.cons_append, List.foldl_cons]
    exact ih a _ hwf

/-- A successful `findIdx?` points at an element satisfying the
predicate. -/
theorem findIdx?_some_spec {α : Type} (p : α → Bool) :
    ∀ (l : List α) (i : Nat), l.findIdx? p = some i →
      ∃ m, l.get? i = some m ∧ p m = true := by
  intro l
  induction l with
  | nil => intro i h; simp [List.findIdx?_nil] at h
  | cons x xs ih =>
    intro i h
    rw [List.findIdx?_cons] at h
    by_cases hp : p x = true
    · rw [if_pos hp] at h
      cases h
      exact ⟨x, rfl, hp⟩
    · rw [if_neg hp, List.findIdx?_succ] at h
      cases hx : xs.findIdx? p with
      | none => rw [hx] at h; simp at h
      | some j =>
        rw [hx] at h
        simp at h
        subst h
        obtain ⟨m, hm, hpm⟩ := ih j hx
        exact ⟨m, by simpa using hm, hpm⟩

/-- Moving an element to the front preserves the length. -/
theorem get?_eraseIdx_head {α : Type} (l : List α) (i : Nat) (m : α)
    (h : l.get? i = some m) : l.length = (m :: l.eraseIdx i).length := by
  have hi : i < l.length := List.get?_eq_some.mp h |>.1
  simp [List.length_eraseIdx, hi]
  omega

/-- The entry-point relocation: no entry point or no containing mapping
leaves the list untouched; otherwise the first containing mapping moves to
index 0 (the rest keeping discovery order). -/
theorem moveEntryFront_spec (ep : Nat) (ms : List MappingInfo) :
    (moveEntryFront none ms = ms) ∧
    (ms.findIdx? (fun m => ep ≥ m.start_addr && ep < m.start_addr + m.size) = none →
      moveEntryFront (some ep) ms = ms) ∧
    (∀ i, ms.findIdx? (fun m => ep ≥ m.start_addr && ep < m.start_addr + m.size) = some i →
      ∃ m, ms.get? i = some m ∧
        (ep ≥ m.start_addr ∧ ep < m.start_addr + m.size) ∧
        moveEntryFront (some ep) ms = m :: ms.eraseIdx i) := by
  refine ⟨rfl, ?_, ?_⟩
  · intro h
    unfold moveEntryFront
    simp only [h]
  · intro i h
    obtain ⟨m, hm, hpm⟩ := findIdx?_some_spec _ ms i h
    refine ⟨m, hm, by simpa using hpm, ?_⟩
    unfold moveEntryFront
    simp only [h]
    by_cases hi : i ≠ 0
    · rw [if_pos hi, hm]
    · push_neg at hi
      subst hi
      rw [if_neg (by simp)]
      cases ms with
      | nil => simp at hm
      | cons x t =>
        simp at hm
        subst hm
        rfl

/-- C5: after `enumerate_mappings`, two consecutively parsed map lines end
up merged into one record exactly when the second starts where the first
ends, the names are equal, and the executable flag is non-decreasing across
them; the merged record spans both lines (same start as before, end of the
second line, executable flag the disjunction). The final list preserves
discovery order except that the first mapping containing the auxv entry
point, when one exists, is relocated to index 0. -/
theorem enumerateMappings_c5
    (ls : List MappingInfo) (a b : MappingInfo) (hwfa : wfLine a) (hwfb : wfLine b)
    (ep : Nat) (lines : List MappingInfo) :
    ((((ls ++ [a, b]).foldl (addMapping none) []).length =
        ((ls ++ [a]).foldl (addMapping none) []).length) ↔ mergeCondLines a b) ∧
    (mergeCondLines a b →
      ∃ ra rab, ((ls ++ [a]).foldl (addMapping none) []).getLast? = some ra ∧
        (ls ++ [a, b]).foldl (addMapping none) [] =
          ((ls ++ [a]).foldl (addMapping none) []).dropLast ++ [rab] ∧
        rab.start_addr = ra.start_addr ∧
        rab.sys_end_addr = b.sys_end_addr ∧
        rab.start_addr + rab.size = b.sys_end_addr ∧
        rab.has_exec = (ra.has_exec || b.has_exec) ∧
        ra.start_addr + ra.size = a.sys_end_addr) ∧
    (enumerateMappings none none lines = lines.foldl (addMapping none) []) ∧
    ((lines.foldl (addMapping none) []).findIdx?
        (fun m => ep ≥ m.start_addr && ep < m.start_addr + m.size) = none →
      enumerateMappings none (some ep) lines = lines.foldl (addMapping none) []) ∧
    (∀ i, (lines.foldl (addMapping none) []).findIdx?
        (fun m => ep ≥ m.start_addr && ep < m.start_addr + m.size) = some i →
      ∃ m, (lines.foldl (addMapping none) []).get? i = some m ∧
        (ep ≥ m.start_addr ∧ ep < m.start_addr + m.size) ∧
        enumerateMappings none (some ep) lines =
          m :: (lines.foldl (addMapping none) []).eraseIdx i) := by
  obtain ⟨ra, hlast, hnm, hex, hsum, hend⟩ := addMapping_track ls a [] hwfa
  have hAne : (ls ++ [a]).foldl (addMapping none) [] ≠ [] := by
    intro h
    rw [h] at hlast
    simp at hlast
  have hAB : (ls ++ [a, b]).foldl (addMapping none) [] =
      addMapping none ((ls ++ [a]).foldl (addMapping none) []) b := by
    rw [show ls ++ [a, b] = (ls ++ [a]) ++ [b] by simp, List.foldl_append,
      List.foldl_cons, List.foldl_nil]
  have hcondiff : (b.start_addr = ra.start_addr + ra.size ∧ b.name = ra.name ∧
      ((b.has_exec == ra.has_exec) || (!ra.has_exec && b.has_exec)) = true) ↔
      mergeCondLines a b := by
    unfold mergeCondLines
    unfold wfLine at hwfa
    rw [hnm, hex]
    constructor
    · rintro ⟨h1, h2, h3⟩
      refine ⟨by omega, h2, ?_⟩
      intro hae
      cases hbe : b.has_exec
      · rw [hae, hbe] at h3; simp at h3
      · rfl
    · rintro ⟨h1, h2, h3⟩
      refine ⟨by omega, h2, ?_⟩
      cases hae : a.has_exec
      · cases hbe : b.has_exec <;> simp
      · rw [h3 hae]
        simp
  by_cases hm : b.start_addr = ra.start_addr + ra.size ∧ b.name = ra.name ∧
      ((b.has_exec == ra.has_exec) || (!ra.has_exec && b.has_exec)) = true
  · have hres : (ls ++ [a, b]).foldl (addMapping none) [] =
        ((ls ++ [a]).foldl (addMapping none) []).dropLast ++ [mergedRec ra b] := by
      rw [hAB, addMapping_none_last]
      simp only [hlast]
      rw [if_pos hm]
    refine ⟨?_, ?_, ?_, ?_, ?_⟩
    · rw [hres]
      simp only [List.length_append, List.length_dropLast, List.length_singleton]
      have : 1 ≤ ((ls ++ [a]).foldl (addMapping none) []).length :=
        List.length_pos.mpr hAne
      constructor
      · intro _; exact hcondiff.mp hm
      · intro _; omega
    · intro _
      refine ⟨ra, mergedRec ra b, hlast, hres, rfl, rfl, ?_, rfl, hsum⟩
      unfold mergedRec
      simp only
      unfold wfLine at hwfa hwfb
      obtain ⟨h1, _, _⟩ := hm
      omega
    · exact (moveEntryFront_spec ep _).1
    · exact fun h => (moveEntryFront_spec ep _).2.1 h
    · exact fun i h => (moveEntryFront_spec ep _).2.2 i h
  · have hres : (ls ++ [a, b]).foldl (addMapping none) [] =
        ((ls ++ [a]).foldl (addMapping none) []) ++ [b] := by
      rw [hAB, addMapping_none_last]
      simp only [hlast]
      rw [if_neg hm]
    refine ⟨?_, ?_, ?_, ?_, ?_⟩
    · rw [hres]
      simp only [List.length_append, List.length_singleton]
      constructor
      · intro h; omega
      · intro h; exact absurd (hcondiff.mpr h) hm
    · intro h
      exact absurd (hcondiff.mpr h) hm
    · exact (moveEntryFront_spec ep _).1
    · exact fun h => (moveEntryFront_spec ep _).2.1 h
    · exact fun i h => (moveEntryFront_spec ep _).2.2 i h

/-- Witness for C5 at concrete consecutive lines that satisfy the merge
condition. -/
theorem enumerateMappings_c5_witness :
    (wfLine mapLineA ∧ wfLine mapLineB) ∧
    (((([] ++ [mapLineA, mapLineB]).foldl (addMapping none) []).length =
        (([] ++ [mapLineA]).foldl (addMapping none) []).length) ↔
      mergeCondLines mapLineA mapLineB) :=
  ⟨⟨by decide, by decide⟩,
    (enumerateMappings_c5 [] mapLineA mapLineB (by decide) (by decide) 5
      [mapLineA]).1⟩

/-- A 16-bit read that stays inside the left part of an append. -/
theorem readU16LE_append_left (A B : List Nat) (k : Nat) (h : k + 2 ≤ A.length) :
    readU16LE (A ++ B) k = readU16LE A k := by
  unfold readU16LE
  rw [List.get?_append (by omega), List.get?_append (by omega)]

/-- A 32-bit read that stays inside the left part of an append. -/
theorem readU32LE_append_left (A B : List Nat) (k : Nat) (h : k + 4 ≤ A.length) :
    readU32LE (A ++ B) k = readU32LE A k := by
  unfold readU32LE
  rw [List.get?_append (by omega), List.get?_append (by omega),
    List.get?_append (by omega), List.get?_append (by omega)]

/-- A 64-bit read that stays inside the left part of an append. -/
theorem readU64LE_append_left (A B : List Nat) (k : Nat) (h : k + 8 ≤ A.length) :
    readU64LE (A ++ B) k = readU64LE A k := by
  unfold readU64LE
  rw [readU32LE_append_left A B k (by omega), readU32LE_append_left A B (k + 4) (by omega)]

/-- `MappedElf::read` on the class-32 synthesized image. -/
theorem elf32_read_synth (R : List Nat) (hR : R.length = 80) :
    MappedElf.read (fixedPart32 ++ R) =
      .ok (some ⟨fixedPart32 ++ R, .class32 ⟨0, 0, 52, 3, 1⟩⟩) := by
  have hF : fixedPart32.length = 192 := by rfl
  have hlen : (fixedPart32 ++ R).length = 272 := by
    rw [List.length_append, hF, hR]
  have htake : (fixedPart32 ++ R).take 4 = fixedPart32.take 4 :=
    List.take_append_of_le_length (by omega)
  have hget4 : (fixedPart32 ++ R).get? 4 = some 1 := by
    rw [List.get?_append (by omega)]
    rfl
  unfold MappedElf.read
  rw [if_neg (by omega)]
  rw [htake]
  rw [if_neg (by decide)]
  simp only [hget4]
  norm_num
  rw [if_neg (by omega)]
  rw [readU32LE_append_left _ _ 28 (by omega), readU32LE_append_left _ _ 32 (by omega),
    readU16LE_append_left _ _ 44 (by omega), readU16LE_append_left _ _ 48 (by omega),
    readU16LE_append_left _ _ 50 (by omega)]
  rfl

/-- The note region spelled out byte by byte (the description length fits
in one byte). -/
theorem noteRegion_explicit (desc : List Nat) (h : desc.length ≤ 64) :
    noteRegion desc = 4 :: 0 :: 0 :: 0 :: desc.length :: 0 :: 0 :: 0 :: 3 :: 0 :: 0 :: 0 ::
      71 :: 78 :: 85 :: 0 :: (desc ++ List.replicate (64 - desc.length) 0) := by
  have h1 : desc.length % 256 = desc.length := Nat.mod_eq_of_lt (by omega)
  have h2 : desc.length / 256 = 0 := Nat.div_eq_of_lt (by omega)
  have h3 : desc.length / 65536 = 0 := Nat.div_eq_of_lt (by omega)
  have h4 : desc.length / 16777216 = 0 := Nat.div_eq_of_lt (by omega)
  unfold noteRegion NT_GNU_BUILD_ID u32le
  simp [h1, h2, h3, h4]

/-- The note region always occupies 80 bytes. -/
theorem noteRegion_length (desc : List Nat) (h : desc.length ≤ 64) :
    (noteRegion desc).length = 80 := by
  rw [noteRegion_explicit desc h]
  simp
  omega

/-- `build_id_from_note` recovers exactly the description bytes from a
serialized GNU build-id note (of description length at most 64). -/
theorem buildIdFromNote_noteRegion (desc : List Nat) (h : desc.length ≤ 64) :
    buildIdFromNote (noteRegion desc) = some desc := by
  have hlen := noteRegion_length desc h
  have hexp := noteRegion_explicit desc h
  unfold buildIdFromNote
  rw [hlen]
  show buildIdLoop (noteRegion desc) 81 0 = some desc
  unfold buildIdLoop
  rw [List.drop_zero]
  have hparse : parseElfNote (noteRegion desc) =
      some (alignUp4 (16 + desc.length), 3, desc) := by
    unfold parseElfNote
    rw [hexp]
    have hr0 : readU32LE (4 :: 0 :: 0 :: 0 :: desc.length :: 0 :: 0 :: 0 :: 3 :: 0 :: 0 :: 0 ::
        71 :: 78 :: 85 :: 0 :: (desc ++ List.replicate (64 - desc.length) 0)) 0 = some 4 := rfl
    have hr4 : readU32LE (4 :: 0 :: 0 :: 0 :: desc.length :: 0 :: 0 :: 0 :: 3 :: 0 :: 0 :: 0 ::
        71 :: 78 :: 85 :: 0 :: (desc ++ List.replicate (64 - desc.length) 0)) 4 =
        some desc.length := by
      unfold readU32LE
      simp [List.get?]
    have hr8 : readU32LE (4 :: 0 :: 0 :: 0 :: desc.length :: 0 :: 0 :: 0 :: 3 :: 0 :: 0 :: 0 ::
        71 :: 78 :: 85 :: 0 :: (desc ++ List.replicate (64 - desc.length) 0)) 8 = some 3 := rfl
    rw [hr0, hr4, hr8]
    simp only [Option.some_bind, Option.bind_some, Option.bind_eq_bind]
    rw [show alignUp4 (12 + 4) = 16 from by decide]
    have hlen2 : (4 :: 0 :: 0 :: 0 :: desc.length :: 0 :: 0 :: 0 :: 3 :: 0 :: 0 :: 0 ::
        71 :: 78 :: 85 :: 0 :: (desc ++ List.replicate (64 - desc.length) 0)).length = 80 := by
      rw [← hexp]; exact hlen
    rw [if_pos (by rw [hlen2]; omega)]
    simp
  simp only [hparse]
  rw [if_pos ⟨rfl, (by exact h : desc.length ≤ MAX_ID_SIZE)⟩]

set_option maxRecDepth 8000

/-- The class-32 synthesized image has no program headers, so the PT_NOTE
scan finds nothing. -/
theorem segments32_empty (R : List Nat) (hR : R.length = 80) :
    segmentsBuildId ⟨fixedPart32 ++ R, .class32 ⟨0, 0, 52, 3, 1⟩⟩ = .ok none := by
  have hF : fixedPart32.length = 192 := by rfl
  unfold segmentsBuildId
  simp only
  unfold rustSlice
  rw [if_pos (by constructor <;> simp)]
  rfl

/-- The named-section lookup on the class-32 synthesized image walks the
three section headers and returns exactly the note region. -/
theorem findSection32_synth (R : List Nat) (hR : R.length = 80) :
    MappedElf.findSectionByName ⟨fixedPart32 ++ R, .class32 ⟨0, 0, 52, 3, 1⟩⟩
      noteSectionName SHT_NOTE = .ok (some R) := by
  have hF : fixedPart32.length = 192 := by rfl
  have hlen : (fixedPart32 ++ R).length = 272 := by
    rw [List.length_append, hF, hR]
  have hsh0 : readShAt false (fixedPart32 ++ R) 52 0 = some ⟨0, 0, 0, 0⟩ := by
    unfold readShAt
    simp only [Bool.false_eq_true, if_false]
    norm_num
    rw [readU32LE_append_left _ _ 52 (by decide), readU32LE_append_left _ _ 56 (by decide),
      readU32LE_append_left _ _ 68 (by decide), readU32LE_append_left _ _ 72 (by decide)]
    rfl
  have hsh1 : readShAt false (fixedPart32 ++ R) 52 1 = some ⟨0, 3, 172, 20⟩ := by
    unfold readShAt
    simp only [Bool.false_eq_true, if_false]
    norm_num
    rw [readU32LE_append_left _ _ 92 (by decide), readU32LE_append_left _ _ 96 (by decide),
      readU32LE_append_left _ _ 108 (by decide), readU32LE_append_left _ _ 112 (by decide)]
    rfl
  have hsh2 : readShAt false (fixedPart32 ++ R) 52 2 = some ⟨1, 7, 192, 80⟩ := by
    unfold readShAt
    simp only [Bool.false_eq_true, if_false]
    norm_num
    rw [readU32LE_append_left _ _ 132 (by decide), readU32LE_append_left _ _ 136 (by decide),
      readU32LE_append_left _ _ 148 (by decide), readU32LE_append_left _ _ 152 (by decide)]
    rfl
  have hnamesSlice : rustSlice (fixedPart32 ++ R) 172 (172 + 20) = .ok strtabBytes := by
    unfold rustSlice
    rw [if_pos (by constructor <;> omega)]
    rw [show (172 : Nat) + 20 - 172 = 20 from rfl]
    rw [show (fixedPart32 ++ R).drop 172 = fixedPart32.drop 172 ++ R from
      List.drop_append_of_le_length (by omega)]
    rw [List.take_append_of_le_length (by decide)]
    rfl
  have hsecSlice : rustSlice (fixedPart32 ++ R) 192 (192 + 80) = .ok R := by
    unfold rustSlice
    rw [if_pos (by constructor <;> omega)]
    rw [show (192 : Nat) + 80 - 192 = 80 from rfl]
    rw [show (192 : Nat) = fixedPart32.length from by rw [hF], List.drop_left]
    rw [← hR, List.take_length]
  have hnl : noteSectionName.length = 18 := by rfl
  have hsl : strtabBytes.length = 20 := by rfl
  unfold MappedElf.findSectionByName
  simp only
  rw [if_neg (by decide), if_neg (by decide)]
  rw [hsh1]
  simp only
  rw [hnamesSlice]
  unfold findSectionLoop
  rw [hsh0]
  simp only [hnl, hsl]
  rw [if_neg (by omega), if_neg (by decide)]
  unfold findSectionLoop
  rw [hsh1]
  simp only [hnl, hsl]
  rw [if_neg (by omega), if_neg (by decide)]
  unfold findSectionLoop
  rw [hsh2]
  simp only [hnl, hsl]
  rw [if_neg (by omega), if_pos (by constructor <;> decide)]
  rw [hsecSlice]

/-- `MappedElf::read` on the class-64 synthesized image. -/
theorem elf64_read_synth (R : List Nat) (hR : R.length = 80) :
    MappedElf.read (fixedPart64 ++ R) =
      .ok (some ⟨fixedPart64 ++ R, .class64 ⟨64, 1, 0, 0, 0⟩⟩) := by
  have hF : fixedPart64.length = 120 := by rfl
  have hlen : (fixedPart64 ++ R).length = 200 := by
    rw [List.length_append, hF, hR]
  have htake : (fixedPart64 ++ R).take 4 = fixedPart64.take 4 :=
    List.take_append_of_le_length (by omega)
  have hget4 : (fixedPart64 ++ R).get? 4 = some 2 := by
    rw [List.get?_append (by omega)]
    rfl
  unfold MappedElf.read
  rw [if_neg (by omega)]
  rw [htake]
  rw [if_neg (by decide)]
  simp only [hget4]
  norm_num
  rw [if_neg (by omega)]
  rw [readU64LE_append_left _ _ 32 (by omega), readU64LE_append_left _ _ 40 (by omega),
    readU16LE_append_left _ _ 56 (by omega), readU16LE_append_left _ _ 60 (by omega),
    readU16LE_append_left _ _ 62 (by omega)]
  rfl

/-- The PT_NOTE scan on the class-64 synthesized image slices the note
segment and returns its build id. -/
theorem segments64_synth (R : List Nat) (hR : R.length = 80) (desc : List Nat)
    (hid : buildIdFromNote R = some desc) :
    segmentsBuildId ⟨fixedPart64 ++ R, .class64 ⟨64, 1, 0, 0, 0⟩⟩ = .ok (some desc) := by
  have hF : fixedPart64.length = 120 := by rfl
  have hlen : (fixedPart64 ++ R).length = 200 := by
    rw [List.length_append, hF, hR]
  have hph : rustSlice (fixedPart64 ++ R) 64 (64 + 56 * 1) = .ok ph64 := by
    unfold rustSlice
    rw [if_pos (by constructor <;> omega)]
    rw [show (64 : Nat) + 56 * 1 - 64 = 56 from rfl]
    rw [show (fixedPart64 ++ R).drop 64 = fixedPart64.drop 64 ++ R from
      List.drop_append_of_le_length (by omega)]
    rw [List.take_append_of_le_length (by decide)]
    rfl
  have hseg : rustSlice (fixedPart64 ++ R) 120 (120 + 80) = .ok R := by
    unfold rustSlice
    rw [if_pos (by constructor <;> omega)]
    rw [show (120 : Nat) + 80 - 120 = 80 from rfl]
    rw [show (120 : Nat) = fixedPart64.length from by rw [hF], List.drop_left]
    rw [← hR, List.take_length]
  unfold segmentsBuildId
  simp only
  rw [show (64 + (if True then (56 : Nat) else 32) * 1) = 64 + 56 * 1 from rfl]
  rw [hph]
  unfold segmentsLoop
  rw [show readPhAt true ph64 0 = ⟨4, 120, 80⟩ from rfl]
  rw [if_pos (by rfl)]
  rw [show ({ p_type := 4, p_offset := 120, p_filesz := 80 } : PhFields).p_offset = 120 from rfl,
    show ({ p_type := 4, p_offset := 120, p_filesz := 80 } : PhFields).p_filesz = 80 from rfl]
  rw [show (120 : Nat) + 80 = 200 from rfl] at hseg
  rw [show (120 : Nat) + 80 = 200 from rfl]
  simp only [hseg, hid]

/-- End to end, class 32: the embedded note's description bytes come back
verbatim (via the named-section strategy). -/
theorem fromMappedFile_synth32 (desc : List Nat) (h : desc.length ≤ 64) :
    fromMappedFile (synthElf32 desc) = .ok (some desc) := by
  have hR := noteRegion_length desc h
  unfold synthElf32 fromMappedFile
  rw [elf32_read_synth _ hR]
  simp only
  rw [segments32_empty _ hR]
  simp only
  rw [findSection32_synth _ hR]
  simp only [Option.some_bind, buildIdFromNote_noteRegion desc h]

/-- End to end, class 64: the embedded note's description bytes come back
verbatim (via the PT_NOTE segment strategy). -/
theorem fromMappedFile_synth64 (desc : List Nat) (h : desc.length ≤ 64) :
    fromMappedFile (synthElf64 desc) = .ok (some desc) := by
  have hR := noteRegion_length desc h
  unfold synthElf64 fromMappedFile
  rw [elf64_read_synth _ hR]
  simp only
  rw [segments64_synth _ hR desc (buildIdFromNote_noteRegion desc h)]

/-- C3: `from_mapped_file` handles both ELF classes and applies the three
strategies in priority order — PT_NOTE segments first (the class-64 image),
then the named `.note.gnu.build-id` section (the class-32 image), then the
`.text` hash fallback — and an embedded GNU build-id note of length at most
64 bytes is returned exactly as its description bytes, for every such
description and both classes. The last three conjuncts state the priority
order for arbitrary images. -/
theorem fromMappedFile_c3 (desc : List Nat) (h : desc.length ≤ 64) :
    fromMappedFile (synthElf64 desc) = .ok (some desc) ∧
    fromMappedFile (synthElf32 desc) = .ok (some desc) ∧
    (∀ (data : List Nat) (melf : MappedElf) (id : List Nat),
      MappedElf.read data = .ok (some melf) →
      segmentsBuildId melf = .ok (some id) →
      fromMappedFile data = .ok (some id)) ∧
    (∀ (data : List Nat) (melf : MappedElf) (sec id : List Nat),
      MappedElf.read data = .ok (some melf) →
      segmentsBuildId melf = .ok none →
      melf.findSectionByName noteSectionName SHT_NOTE = .ok (some sec) →
      buildIdFromNote sec = some id →
      fromMappedFile data = .ok (some id)) ∧
    (∀ (data : List Nat) (melf : MappedElf) (secOpt : Option (List Nat)),
      MappedElf.read data = .ok (some melf) →
      segmentsBuildId melf = .ok none →
      melf.findSectionByName noteSectionName SHT_NOTE = .ok secOpt →
      secOpt.bind buildIdFromNote = none →
      fromMappedFile data = hashTextSection melf) := by
  refine ⟨fromMappedFile_synth64 desc h, fromMappedFile_synth32 desc h, ?_, ?_, ?_⟩
  · intro data melf id hread hseg
    unfold fromMappedFile
    rw [hread]
    simp only
    rw [hseg]
  · intro data melf sec id hread hseg hsec hid
    unfold fromMappedFile
    rw [hread]
    simp only
    rw [hseg]
    simp only
    rw [hsec]
    simp only [Option.some_bind, hid]
  · intro data melf secOpt hread hseg hsec hnone
    unfold fromMappedFile
    rw [hread]
    simp only
    rw [hseg]
    simp only
    rw [hsec]
    simp only [hnone]

/-- Witness for C3 at a concrete 2-byte build id. -/
theorem fromMappedFile_c3_witness :
    ([171, 205].length ≤ 64 ∧ True) ∧
    fromMappedFile (synthElf64 [171, 205]) = .ok (some [171, 205]) :=
  ⟨⟨by decide, trivial⟩, (fromMappedFile_c3 [171, 205] (by decide)).1⟩

theorem firstNl_cons (a : Nat) (t : List Nat) :
    firstNl (a :: t) = if a = 10 then some 0 else (firstNl t).map (· + 1) := rfl

theorem linesOfAux_cons (acc : List Nat) (b : Nat) (rest : List Nat) :
    linesOfAux acc (b :: rest) =
      if b = 10 then acc :: linesOfAux [] rest else linesOfAux (acc ++ [b]) rest := rfl

theorem firstNl_append_some (A B : List Nat) (j : Nat) (h : firstNl A = some j) :
    firstNl (A ++ B) = some j := by
  induction A generalizing j with
  | nil => simp [firstNl] at h
  | cons a t ih =>
    rw [firstNl_cons] at h
    rw [show a :: t ++ B = a :: (t ++ B) from rfl, firstNl_cons]
    by_cases ha : a = 10
    · rw [if_pos ha] at h ⊢
      exact h
    · rw [if_neg ha] at h ⊢
      cases ht : firstNl t with
      | none => rw [ht] at h; simp at h
      | some k =>
        rw [ht] at h
        simp at h
        rw [ih k ht]
        simpa using h

theorem firstNl_append_none (A B : List Nat) (h : firstNl A = none) :
    firstNl (A ++ B) = (firstNl B).map (· + A.length) := by
  induction A with
  | nil => simp [firstNl]
  | cons a t ih =>
    rw [firstNl_cons] at h
    rw [show a :: t ++ B = a :: (t ++ B) from rfl, firstNl_cons]
    by_cases ha : a = 10
    · rw [if_pos ha] at h; simp at h
    · rw [if_neg ha] at h ⊢
      cases ht : firstNl t with
      | none =>
        rw [ht] at ih
        rw [ih rfl]
        cases hb : firstNl B <;> simp [List.length_cons]
        omega
      | some k => rw [ht] at h; simp at h

theorem firstNl_some_lt (A : List Nat) (j : Nat) (h : firstNl A = some j) :
    j < A.length := by
  induction A generalizing j with
  | nil => simp [firstNl] at h
  | cons a t ih =>
    unfold firstNl at h
    by_cases ha : a = 10
    · rw [if_pos ha] at h
      cases h
      simp
    · rw [if_neg ha] at h
      cases ht : firstNl t with
      | none => rw [ht] at h; simp at h
      | some k =>
        rw [ht] at h
        simp at h
        have := ih k ht
        simp
        omega

theorem linesOfAux_some (l : List Nat) (j : Nat) (h : firstNl l = some j) :
    ∀ acc, linesOfAux acc l = (acc ++ l.take j) :: linesOf (l.drop (j + 1)) := by
  induction l generalizing j with
  | nil => simp [firstNl] at h
  | cons a t ih =>
    intro acc
    unfold firstNl at h
    by_cases ha : a = 10
    · rw [if_pos ha] at h
      cases h
      unfold linesOfAux
      rw [if_pos ha]
      simp [linesOf]
    · rw [if_neg ha] at h
      cases ht : firstNl t with
      | none => rw [ht] at h; simp at h
      | some k =>
        rw [ht] at h
        simp at h
        subst h
        rw [linesOfAux_cons, if_neg ha]
        rw [ih k ht (acc ++ [a])]
        simp

theorem linesOfAux_none (l : List Nat) (h : firstNl l = none) :
    ∀ acc, linesOfAux acc l = if acc ++ l = [] then [] else [acc ++ l] := by
  induction l with
  | nil => intro acc; simp [linesOfAux]
  | cons a t ih =>
    intro acc
    unfold firstNl at h
    by_cases ha : a = 10
    · rw [if_pos ha] at h; simp at h
    · rw [if_neg ha] at h
      cases ht : firstNl t with
      | some k => rw [ht] at h; simp at h
      | none =>
        rw [linesOfAux_cons, if_neg ha]
        rw [ih ht (acc ++ [a])]
        simp

theorem linesOf_some (l : List Nat) (j : Nat) (h : firstNl l = some j) :
    linesOf l = l.take j :: linesOf (l.drop (j + 1)) := by
  unfold linesOf
  rw [linesOfAux_some l j h []]
  simp
  rfl

theorem linesOf_none (l : List Nat) (h : firstNl l = none) (hne : l ≠ []) :
    linesOf l = [l] := by
  unfold linesOf
  rw [linesOfAux_none l h []]
  simp [hne]

theorem lrLoopF_post (N : Nat) (hN : 0 < N) :
    ∀ (fuel : Nat) (chunks : List (List Nat)) (buffer : List Nat) (cursor : Nat),
      sourceLen chunks + 2 ≤ fuel →
      (∀ c ∈ chunks, c ≠ []) → cursor ≤ buffer.length → buffer.length ≤ N →
      LrPost N (lrLoopF N fuel chunks buffer cursor false)
        (buffer.drop cursor ++ chunks.join) := by
  intro fuel
  induction fuel with
  | zero => intro chunks buffer cursor hfuel; omega
  | succ f ih =>
    intro chunks buffer cursor hfuel h1 h2 h3
    simp only [lrLoopF, Bool.false_eq_true, if_false]
    cases hnl : firstNl (buffer.drop cursor) with
    | some j =>
      simp only [hnl]
      have hjlt : j < (buffer.drop cursor).length := firstNl_some_lt _ _ hnl
      have hjlen : j < buffer.length - cursor := by
        have h := hjlt
        rw [List.length_drop] at h
        exact h
      have hrem : firstNl (buffer.drop cursor ++ chunks.join) = some j :=
        firstNl_append_some _ _ _ hnl
      have hjN : j < N := by omega
      unfold LrPost
      simp only [hrem]
      rw [if_pos hjN]
      refine ⟨chunks, buffer, cursor + j + 1, ?_, by omega, h3, h1, ?_⟩
      · have hfs : fixedStrFromSlice N ((buffer.drop cursor).take j) =
            some ((buffer.drop cursor).take j) := by
          unfold fixedStrFromSlice
          rw [if_neg (by rw [List.length_take]; omega)]
        rw [hfs]
        rw [List.take_append_of_le_length (by omega)]
      · rw [List.drop_append_of_le_length (by omega), List.drop_drop, ← Nat.add_assoc]
    | none =>
      simp only [hnl]
      have hremnl : firstNl (buffer.drop cursor ++ chunks.join) =
          (firstNl chunks.join).map (· + (buffer.drop cursor).length) :=
        firstNl_append_none _ _ hnl
      by_cases hover : cursor < buffer.length ∧ cursor = 0 ∧ buffer.length = N
      · rw [if_pos hover]
        obtain ⟨hlt, hc0, hlN⟩ := hover
        unfold LrPost
        cases hj2 : firstNl (buffer.drop cursor ++ chunks.join) with
        | some j =>
          rw [hj2] at hremnl
          simp only [hj2]
          have hnotlt : ¬ j < N := by
            cases hjoin : firstNl chunks.join with
            | none => rw [hjoin] at hremnl; simp at hremnl
            | some k =>
              rw [hjoin] at hremnl
              simp at hremnl
              omega
          rw [if_neg hnotlt]
          trivial
        | none =>
          simp only [hj2]
          have hlen : N ≤ (buffer.drop cursor ++ chunks.join).length := by
            rw [List.length_append, List.length_drop, hc0]
            omega
          rw [if_neg (by
            intro he
            rw [he] at hlen
            simp at hlen
            omega)]
          rw [if_neg (by omega)]
          trivial
      · rw [if_neg hover]
        push_neg at hover
        have hld : (buffer.drop cursor).length = buffer.length - cursor :=
          List.length_drop _ _
        have hb2len : (buffer.drop cursor).length < N := by
          rcases Nat.eq_zero_or_pos cursor with hc0 | hcpos
          · subst hc0
            rcases Nat.lt_or_ge 0 buffer.length with hl | hl
            · have hne := hover hl rfl
              omega
            · omega
          · omega
        cases chunks with
        | nil =>
          obtain ⟨f2, rfl⟩ : ∃ f2, f = f2 + 1 := ⟨f - 1, by
            simp [sourceLen] at hfuel
            omega⟩
          simp only [lrLoopF, if_pos rfl]
          unfold LrPost
          simp only [List.flatten_nil, List.append_nil]
          simp only [hnl]
          by_cases hbe : buffer.drop cursor = []
          · rw [if_pos hbe, hbe]
            simp
          · have hlt2 : 0 < (buffer.drop cursor).length := List.length_pos.mpr hbe
            rw [if_neg hbe, if_pos hb2len]
            rw [if_pos hlt2]
            refine ⟨⟨[], buffer.drop cursor, (buffer.drop cursor).length, true⟩, ?_, rfl⟩
            have hfs : fixedStrFromSlice N ((buffer.drop cursor).drop 0) =
                some (buffer.drop cursor) := by
              unfold fixedStrFromSlice
              rw [List.drop_zero, if_neg (by omega)]
            rw [hfs]
            rw [if_pos trivial]
        | cons c rest =>
          simp only []
          have hcne : c ≠ [] := h1 c (List.mem_cons_self _ _)
          have hclen : 0 < c.length := List.length_pos.mpr hcne
          have hsl2 : sourceLen (c :: rest) = c.length + sourceLen rest := by
            simp [sourceLen]
          have hgotlen : (c.take (N - (buffer.drop cursor).length)).length =
              min (N - (buffer.drop cursor).length) c.length := List.length_take _ _
          rw [if_neg (by rw [hgotlen]; omega)]
          by_cases hfit : c.length ≤ N - (buffer.drop cursor).length
          · rw [if_pos hfit]
            have htake : c.take (N - (buffer.drop cursor).length) = c :=
              List.take_of_length_le hfit
            rw [htake]
            have hrem2 : buffer.drop cursor ++ (c :: rest).join =
                (buffer.drop cursor ++ c).drop 0 ++ rest.join := by
              simp
            rw [hrem2]
            exact ih rest (buffer.drop cursor ++ c) 0 (by omega)
              (fun x hx => h1 x (List.mem_cons_of_mem _ hx)) (by omega)
              (by rw [List.length_append]; omega)
          · rw [if_neg hfit]
            have hdne : (0 : Nat) < (c.drop (N - (buffer.drop cursor).length)).length := by
              rw [List.length_drop]
              omega
            have hrem2 : buffer.drop cursor ++ (c :: rest).join =
                (buffer.drop cursor ++ c.take (N - (buffer.drop cursor).length)).drop 0 ++
                  (c.drop (N - (buffer.drop cursor).length) :: rest).join := by
              simp only [List.drop_zero, List.flatten_cons, List.append_assoc]
              rw [← List.append_assoc (c.take _), List.take_append_drop]
            rw [hrem2]
            refine ih _ _ 0 ?_ ?_ (by omega) ?_
            · have hs3 : sourceLen (c.drop (N - (buffer.drop cursor).length) :: rest) =
                  (c.length - (N - (buffer.drop cursor).length)) + sourceLen rest := by
                simp [sourceLen]
              omega
            · intro x hx
              rcases List.mem_cons.mp hx with hx | hx
              · subst hx
                intro he
                rw [he] at hdne
                simp at hdne
              · exact h1 x (List.mem_cons_of_mem _ hx)
            · rw [List.length_append, hgotlen]
              omega

theorem lrRun_eof (N fuel : Nat) (st : LRState) (h : st.eofF = true) :
    lrRun N fuel st = [] := by
  cases fuel with
  | zero => rfl
  | succ f =>
    unfold lrRun lrNext
    rw [if_pos h]

theorem lrRun_correct (N : Nat) (hN : 0 < N) :
    ∀ (fuel : Nat) (ck : List (List Nat)) (bf : List Nat) (cr : Nat),
      (∀ c ∈ ck, c ≠ []) → cr ≤ bf.length → bf.length ≤ N →
      (bf.drop cr ++ ck.join).length < fuel →
      lrRun N fuel ⟨ck, bf, cr, false⟩ =
        (linesOf (bf.drop cr ++ ck.join)).takeWhile
          (fun l => decide (l.length < N)) := by
  intro fuel
  induction fuel with
  | zero => intro ck bf cr _ _ _ hf; omega
  | succ f ih =>
    intro ck bf cr h1 h2 h3 hf
    have hpost := lrLoopF_post N hN (sourceLen ck + 2) ck bf cr le_rfl h1 h2 h3
    rcases hres : lrLoopF N (sourceLen ck + 2) ck bf cr false with ⟨o, st2⟩
    rw [hres] at hpost
    have hnext : lrNext N ⟨ck, bf, cr, false⟩ = (o, st2) := hres
    unfold lrRun
    rw [hnext]
    unfold LrPost at hpost
    cases hnl : firstNl (bf.drop cr ++ ck.join) with
    | some j =>
      simp only [hnl] at hpost
      have hjlt := firstNl_some_lt _ _ hnl
      rw [linesOf_some _ j hnl, List.takeWhile_cons]
      by_cases hjN : j < N
      · rw [if_pos hjN] at hpost
        obtain ⟨ck2, bf2, cr2, heq, hc2, hb2, hcne2, hrem2⟩ := hpost
        simp only [Prod.mk.injEq] at heq
        obtain ⟨ho, hst⟩ := heq
        subst ho
        subst hst
        show (bf.drop cr ++ ck.join).take j :: lrRun N f ⟨ck2, bf2, cr2, false⟩ = _
        have hct : decide (((bf.drop cr ++ ck.join).take j).length < N) = true := by
          simp only [List.length_take, decide_eq_true_eq]
          omega
        rw [hct, if_pos rfl]
        congr 1
        rw [show (bf.drop cr ++ ck.join).drop (j + 1) = bf2.drop cr2 ++ ck2.join from
          hrem2.symm]
        refine ih ck2 bf2 cr2 hcne2 hc2 hb2 ?_
        rw [hrem2, List.length_drop]
        omega
      · rw [if_neg hjN] at hpost
        subst hpost
        have hcf : decide (((bf.drop cr ++ ck.join).take j).length < N) = false := by
          simp only [List.length_take, decide_eq_false_iff_not]
          omega
        rw [hcf, if_neg Bool.false_ne_true]
    | none =>
      simp only [hnl] at hpost
      by_cases hre : bf.drop cr ++ ck.join = []
      · rw [if_pos hre] at hpost
        subst hpost
        rw [hre]
        rfl
      · rw [if_neg hre] at hpost
        rw [linesOf_none _ hnl hre, List.takeWhile_cons]
        by_cases hlen : (bf.drop cr ++ ck.join).length < N
        · rw [if_pos hlen] at hpost
          obtain ⟨st3, heq, heof⟩ := hpost
          simp only [Prod.mk.injEq] at heq
          obtain ⟨ho, hst⟩ := heq
          subst ho
          rw [← hst] at heof
          show (bf.drop cr ++ ck.join) :: lrRun N f st2 = _
          rw [lrRun_eof N f st2 heof]
          have hct : decide ((bf.drop cr ++ ck.join).length < N) = true := by
            simp only [decide_eq_true_eq]
            omega
          rw [hct, if_pos rfl]
          rfl
        · rw [if_neg hlen] at hpost
          subst hpost
          have hcf : decide ((bf.drop cr ++ ck.join).length < N) = false := by
            simp only [decide_eq_false_iff_not]
            omega
          rw [hcf, if_neg Bool.false_ne_true]

theorem takeWhile_all (p : List Nat → Bool) :
    ∀ (ls : List (List Nat)), (∀ l ∈ ls, p l = true) → ls.takeWhile p = ls := by
  intro ls
  induction ls with
  | nil => intro _; rfl
  | cons a t ih =>
    intro h
    rw [List.takeWhile_cons, if_pos (h a (List.mem_cons_self _ _)),
      ih (fun l hl => h l (List.mem_cons_of_mem _ hl))]

/-- **C7**: for every input byte stream and every way it is split across
successive `read` chunks (each nonempty, per the `Read` contract that a
0-byte read means EOF), the lines yielded by `LineReader` with buffer
capacity `N` are exactly the lines of the whole input split on newline
bytes — including a final unterminated line — truncated at the first line
of length ≥ `N`, where iteration yields `None` without panicking; in
particular, when every line is shorter than `N` the yielded sequence is
the full split. -/
theorem lineReader_c7 (N : Nat) (hN : 0 < N) (chunks : List (List Nat))
    (hck : ∀ c ∈ chunks, c ≠ []) (input : List Nat) (hin : chunks.join = input)
    (fuel : Nat) (hf : input.length < fuel) :
    lrRun N fuel (lrInit chunks) =
      (linesOf input).takeWhile (fun l => decide (l.length < N)) ∧
    ((∀ l ∈ linesOf input, l.length < N) →
      lrRun N fuel (lrInit chunks) = linesOf input) := by
  subst hin
  have h := lrRun_correct N hN fuel chunks [] 0 hck (by simp) (by simp)
    (by simpa using hf)
  simp only [List.drop_nil, List.nil_append] at h
  have hmain : lrRun N fuel (lrInit chunks) =
      (linesOf chunks.join).takeWhile (fun l => decide (l.length < N)) := h
  refine ⟨hmain, fun hall => ?_⟩
  rw [hmain]
  exact takeWhile_all _ _ (fun l hl => decide_eq_true (hall l hl))

/-- Witness for C7: capacity 4, input `"a\nbb\ncccc\nd"` split as
`["a\nb", "b\ncccc\nd"]`; the reader yields `a` and `bb`, then stops at
the overlong line `cccc`. -/
theorem lineReader_c7_witness :
    ((0 : Nat) < 4 ∧
      (∀ c ∈ ([[97, 10, 98], [98, 10, 99, 99, 99, 99, 10, 100]] :
        List (List Nat)), c ≠ [])) ∧
    lrRun 4 12 (lrInit [[97, 10, 98], [98, 10, 99, 99, 99, 99, 10, 100]]) =
      (linesOf [97, 10, 98, 98, 10, 99, 99, 99, 99, 10, 100]).takeWhile
        (fun l => decide (l.length < 4)) ∧
    lrRun 4 12 (lrInit [[97, 10, 98], [98, 10, 99, 99, 99, 99, 10, 100]]) =
      [[97], [98, 98]] :=
  ⟨⟨by decide, by decide⟩,
    (lineReader_c7 4 (by decide) [[97, 10, 98], [98, 10, 99, 99, 99, 99, 10, 100]]
      (by decide) [97, 10, 98, 98, 10, 99, 99, 99, 99, 10, 100] (by decide) 12
      (by decide)).1,
    by decide⟩
